import Mathlib

/-!
# Verification of the THE_Email_Scraper scraping engine

This file gives a shallow embedding, in Lean 4, of the parts of the
scraper's Python source that the specification's claims are about, and
proves (or refutes) each claim against that embedding.

Conventions used throughout:

* Python strings are modelled as `List Char`; Python's byte-oriented
  operations are modelled on `Char.toNat` codepoints.  Percent and UTF-8
  multi-byte behaviour is only faithful for codepoints below 128, which
  is all that any theorem below exercises.
* Python `dict`s keyed by strings are modelled as functions, sets as
  `Finset`/`List` with explicit membership checks.
* Fallible Python code (exceptions) is modelled with `Option`.
* Threaded code (`Crawler.crawl_small`) is modelled as an interleaving
  small-step relation whose atomic steps are exactly the lock-protected
  regions of the source.
-/

/-! ## Basic character helpers (Python `str` methods) -/

/-- ASCII uppercase test used by `str.lower` on one character.
Python's `str.lower` is modelled character-wise; this is exact for the
ASCII inputs used in every theorem below. -/
def pyLowerChar (c : Char) : Char :=
  if 65 ≤ c.toNat ∧ c.toNat ≤ 90 then Char.ofNat (c.toNat + 32) else c

/-- Python `s.lower()` on a whole string. -/
def pyLower (s : List Char) : List Char := s.map pyLowerChar

/-! ## The Cloudflare `data-cfemail` decoder
(`HybridEmailExtractor._decode_cfemail`, src/hybrid_email_extractor.py
lines 21-26):

```python
def _decode_cfemail(self, cf: str) -> str:
    key = int(cf[:2], 16)
    return ''.join(
        chr(int(cf[i:i+2], 16) ^ key)
        for i in range(2, len(cf), 2)
    )
```

`int(x, 16)` raising `ValueError` on non-hex input is modelled with
`Option`. -/

/-- Value of one hex digit, as accepted by Python's `int(_, 16)`. -/
def hexDigitVal (c : Char) : Option Nat :=
  if 48 ≤ c.toNat ∧ c.toNat ≤ 57 then some (c.toNat - 48)
  else if 97 ≤ c.toNat ∧ c.toNat ≤ 102 then some (c.toNat - 97 + 10)
  else if 65 ≤ c.toNat ∧ c.toNat ≤ 70 then some (c.toNat - 65 + 10)
  else none

/-- Value of a two-hex-digit pair. -/
def hexPairVal (c1 c2 : Char) : Option Nat := do
  let h ← hexDigitVal c1
  let l ← hexDigitVal c2
  return 16 * h + l

/-- The generator `chr(int(cf[i:i+2], 16) ^ key)` for `i in
range(2, len(cf), 2)`: note that a trailing odd chunk is a single hex
digit, exactly as Python slices it. -/
def decodeCfemailTail (key : Nat) : List Char → Option (List Char)
  | [] => some []
  | [c] => do
      let d ← hexDigitVal c
      return [Char.ofNat (d ^^^ key)]
  | c1 :: c2 :: rest => do
      let b ← hexPairVal c1 c2
      let tl ← decodeCfemailTail key rest
      return Char.ofNat (b ^^^ key) :: tl

/-- `HybridEmailExtractor._decode_cfemail`. -/
def decode_cfemail (cf : List Char) : Option (List Char) :=
  match cf with
  | c1 :: c2 :: rest => do
      let key ← hexPairVal c1 c2
      decodeCfemailTail key rest
  | _ => none

/-- Lowercase hex digit for a value below 16. -/
def toHexDigit (n : Nat) : Char :=
  if n < 10 then Char.ofNat (48 + n) else Char.ofNat (97 + (n - 10))

/-- Two-hex-digit encoding of a byte. -/
def toHexPair (n : Nat) : List Char := [toHexDigit (n / 16), toHexDigit (n % 16)]

/-- The cfemail *encoder* matching the decoder: first the key byte in
hex, then each plaintext character XORed with the key, in hex.  (The
encoder is the synthetic-test counterpart of `_decode_cfemail`; the
repository only ships the decoder.) -/
def encode_cfemail (key : Nat) (pt : List Char) : List Char :=
  toHexPair key ++ (pt.map fun c => toHexPair (c.toNat ^^^ key)).flatten

theorem hexDigitVal_toHexDigit {n : Nat} (h : n < 16) :
    hexDigitVal (toHexDigit n) = some n := by
  interval_cases n <;> decide

theorem hexPairVal_toHexPair {n : Nat} (h : n < 256) :
    hexPairVal (toHexDigit (n / 16)) (toHexDigit (n % 16)) = some n := by
  have h1 : n / 16 < 16 := Nat.div_lt_of_lt_mul (by omega)
  have h2 : n % 16 < 16 := Nat.mod_lt _ (by omega)
  simp [hexPairVal, hexDigitVal_toHexDigit h1, hexDigitVal_toHexDigit h2]
  omega

theorem decodeCfemailTail_encoded {key : Nat}
    (bs : List Nat) (hbs : ∀ b ∈ bs, b < 256) :
    decodeCfemailTail key ((bs.map toHexPair).flatten)
      = some (bs.map fun b => Char.ofNat (b ^^^ key)) := by
  induction bs with
  | nil => simp [decodeCfemailTail]
  | cons b rest ih =>
    have hb : b < 256 := hbs b (List.mem_cons_self ..)
    have hrest : ∀ x ∈ rest, x < 256 := fun x hx => hbs x (List.mem_cons_of_mem _ hx)
    simp only [List.map_cons, List.flatten_cons, toHexPair, List.cons_append,
      List.nil_append]
    simp [decodeCfemailTail, hexPairVal_toHexPair hb, ih hrest]


theorem decode_cfemail_header {key : Nat} (hk : key < 256) (body : List Char) :
    decode_cfemail (toHexPair key ++ body) = decodeCfemailTail key body := by
  simp [decode_cfemail, toHexPair, hexPairVal_toHexPair hk]

/-- **C8.** The cfemail decoder, applied to a hex string whose first
byte is the key `k`, returns `chr(b XOR k)` for each subsequent byte
`b` in order, and decoding the hex encoding produced by the matching
encoder returns the plaintext, for every key byte and every plaintext
of byte-valued characters. -/
theorem C8_decode_cfemail (key : Nat) (hk : key < 256) :
    (∀ bs : List Nat, (∀ b ∈ bs, b < 256) →
      decode_cfemail (toHexPair key ++ (bs.map toHexPair).flatten)
        = some (bs.map fun b => Char.ofNat (b ^^^ key))) ∧
    (∀ pt : List Char, (∀ c ∈ pt, c.toNat < 256) →
      decode_cfemail (encode_cfemail key pt) = some pt) := by
  constructor
  · intro bs hbs
    rw [decode_cfemail_header hk, decodeCfemailTail_encoded bs hbs]
  · intro pt hpt
    have hmap : (pt.map fun c => toHexPair (c.toNat ^^^ key))
        = ((pt.map fun c => c.toNat ^^^ key).map toHexPair) := by
      rw [List.map_map]; rfl
    rw [encode_cfemail, hmap, decode_cfemail_header hk,
      decodeCfemailTail_encoded]
    · congr 1
      rw [List.map_map]
      conv_rhs => rw [show pt = pt.map id from (List.map_id pt).symm]
      refine List.map_congr_left fun c _ => ?_
      simp [Nat.xor_cancel_right, Char.ofNat_toNat]
    · intro b hb
      obtain ⟨c, hc, rfl⟩ := List.mem_map.mp hb
      have : (256 : Nat) = 2 ^ 8 := by norm_num
      rw [this] at *
      exact Nat.xor_lt_two_pow (hpt c hc) hk

/-- Witness for C8 at a concrete key and plaintext. -/
theorem C8_decode_cfemail_witness :
    decode_cfemail (encode_cfemail 84 ['a', 'b']) = some ['a', 'b'] :=
  (C8_decode_cfemail 84 (by decide)).2 ['a', 'b'] (by decide)

/-! ## Email cleaning (`EmailExtractor`, src/email_extractor.py)

`clean_email` (lines 127-153) strips whitespace and a case-insensitive
`mailto:` prefix, drops everything after `?`, splits at the last `@`,
strips/rstrips punctuation from the host, IDNA-decodes the host
(failures keep the raw host), lowercases `user@host` as a whole, and
validates.  `is_valid_email` (lines 72-125) performs the syntactic,
blacklist, suspicious-pattern and drop-pattern checks.

The third-party `idna.decode` is a parameter `idnaDecode` (`none`
models a decode failure, which the source catches and ignores); the
`SCRAPER_TEST_MODE` environment switch is the parameter `testMode`. -/

/-- `(Char.ofNat n).toNat = n` below the surrogate range. -/
theorem toNat_charOfNat {n : Nat} (h : n < 55296) : (Char.ofNat n).toNat = n := by
  simp [Char.ofNat, Nat.isValidChar, h, Char.toNat, Char.ofNatAux, UInt32.toNat]

theorem pyLowerChar_idem (c : Char) : pyLowerChar (pyLowerChar c) = pyLowerChar c := by
  unfold pyLowerChar
  by_cases h : 65 ≤ c.toNat ∧ c.toNat ≤ 90
  · rw [if_pos h]
    have ht : (Char.ofNat (c.toNat + 32)).toNat = c.toNat + 32 :=
      toNat_charOfNat (by omega)
    rw [if_neg (by omega)]
  · rw [if_neg h, if_neg h]

theorem pyLower_idem (s : List Char) : pyLower (pyLower s) = pyLower s := by
  simp [pyLower, List.map_map]
  exact fun c _ => pyLowerChar_idem c

/-- Python whitespace for `str.strip()` (ASCII fragment). -/
def isPySpace (c : Char) : Bool :=
  c = ' ' ∨ c = '\t' ∨ c = '\n' ∨ c = '\r' ∨ c.toNat = 11 ∨ c.toNat = 12

/-- `s.rstrip(chars)`. -/
def pyRstrip (strip : Char → Bool) (s : List Char) : List Char :=
  (s.reverse.dropWhile strip).reverse

/-- `s.strip()`. -/
def pyStrip (s : List Char) : List Char :=
  pyRstrip isPySpace (s.dropWhile isPySpace)

/-- `s.rsplit(sep, 1)` when it yields two parts (i.e. `sep` occurs);
`none` models the `ValueError` of unpacking a 1-element split. -/
def rsplitOnce (sep : Char) (s : List Char) : Option (List Char × List Char) :=
  if sep ∈ s then
    some (((s.reverse.dropWhile (· ≠ sep)).tail).reverse,
          (s.reverse.takeWhile (· ≠ sep)).reverse)
  else none

/-- `EmailExtractor.domain_blacklist`. -/
def domainBlacklist : List (List Char) :=
  ["example.com".data, "test.com".data, "domain.com".data, "email.com".data,
   "yourcompany.com".data, "company.com".data, "localhost".data]

/-- `EmailExtractor.suspicious_patterns` (each regex `(?i)X@` is the
case-insensitive substring `X@`). -/
def suspiciousPatterns : List (List Char) :=
  ["noreply@".data, "donotreply@".data, "no-reply@".data,
   "webmaster@".data, "hostmaster@".data, "postmaster@".data]

/-- A hex digit as matched by `[0-9a-f]` under `re.I`. -/
def isHexChar (c : Char) : Bool :=
  (48 ≤ c.toNat ∧ c.toNat ≤ 57) ∨ (97 ≤ c.toNat ∧ c.toNat ≤ 102) ∨
  (65 ≤ c.toNat ∧ c.toNat ≤ 70)

/-- `EmailExtractor._drop_patterns`: asset-filename suffixes
(`\.(?:png|jpe?g|gif)$`, case-insensitive) or a ≥20-char hex-only
string (`^[0-9a-f]{20,}$`, case-insensitive). -/
def dropPatternHit (s : List Char) : Bool :=
  (".png".data.isSuffixOf (pyLower s) ∨ ".jpg".data.isSuffixOf (pyLower s) ∨
   ".jpeg".data.isSuffixOf (pyLower s) ∨ ".gif".data.isSuffixOf (pyLower s)) ∨
  (20 ≤ s.length ∧ s.all isHexChar)

/-- `EmailExtractor.is_valid_email`. -/
def is_valid_email (testMode : Bool) (email : List Char) : Bool :=
  if email = [] ∨ '@' ∉ email then false
  else match rsplitOnce '@' email with
  | none => false
  | some (localPart, domain) =>
    if localPart = [] then false
    else if 64 < localPart.length then false
    else if domain = [] then false
    else if 255 < domain.length then false
    else if '.' ∉ domain then false
    else if ¬testMode ∧ pyLower domain ∈ domainBlacklist then false
    else if ∃ p ∈ suspiciousPatterns, p <:+: pyLower email then false
    else if dropPatternHit localPart ∨ dropPatternHit domain then false
    else true

/-- Trailing punctuation stripped from the host by `clean_email`
(the Python literal is the char class of `"%;,:)}]>\"'`" `). -/
def hostTrailingPunct : List Char :=
  ['%', ';', ',', ':', ')', '}', ']', '>', '"', Char.ofNat 39, Char.ofNat 96]

/-- `EmailExtractor.clean_email`; `some` is a successful return,
`none` the `EmailValidationError` paths. -/
def clean_email (idnaDecode : List Char → Option (List Char)) (testMode : Bool)
    (email : List Char) : Option (List Char) :=
  let e1 := pyStrip email
  let e2 := if (pyLower e1).take 7 = "mailto:".data then e1.drop 7 else e1
  let e3 := e2.takeWhile (· ≠ '?')
  match rsplitOnce '@' e3 with
  | none => none
  | some (user, host) =>
      let host1 := pyRstrip (· ∈ hostTrailingPunct) (pyStrip host)
      let host2 := (idnaDecode host1).getD host1
      let cleaned := pyLower (user ++ '@' :: host2)
      if is_valid_email testMode cleaned then some cleaned else none

/-- The accumulation loop of `EmailExtractor.extract_from_text`
(lines 265-273) over the regex matches (`candidates`): clean each
match, re-validate, and keep the survivors.  The `EMAIL_RE` engine
itself is not modelled; the theorem quantifies over every possible
match list. -/
def extract_from_text_hits (idnaDecode : List Char → Option (List Char))
    (testMode : Bool) (candidates : List (List Char)) : List (List Char) :=
  candidates.filterMap fun raw =>
    (clean_email idnaDecode testMode raw).bind fun e =>
      if is_valid_email testMode e then some e else none

/-- **C9.** Every string returned by `clean_email` equals its own
lowercase (the local part is lowercased along with the host), and
hence every email in an extractor's result set is fully lowercase. -/
theorem C9_clean_email_lowercase
    (idnaDecode : List Char → Option (List Char)) (testMode : Bool) :
    (∀ e r, clean_email idnaDecode testMode e = some r → pyLower r = r) ∧
    (∀ candidates r, r ∈ extract_from_text_hits idnaDecode testMode candidates →
      pyLower r = r) := by
  have key : ∀ e r, clean_email idnaDecode testMode e = some r → pyLower r = r := by
    intro e r h
    simp only [clean_email] at h
    split at h
    · exact absurd h (by simp)
    · split at h
      · obtain rfl := Option.some.inj h
        exact pyLower_idem _
      · exact absurd h (by simp)
  refine ⟨key, fun candidates r hr => ?_⟩
  obtain ⟨raw, _, hraw⟩ := List.mem_filterMap.mp hr
  rcases hc : clean_email idnaDecode testMode raw with _ | e
  · rw [hc] at hraw; exact absurd hraw (by simp)
  · rw [hc] at hraw
    simp only [Option.some_bind] at hraw
    split at hraw
    · obtain rfl := Option.some.inj hraw
      exact key raw _ hc
    · exact absurd hraw (by simp)

/-- Witness for C9: `clean_email` on `"MailTo:Foo@Bar.com?x=1"`
succeeds and returns a lowercase-fixed string. -/
theorem C9_clean_email_lowercase_witness :
    clean_email (fun _ => none) false "MailTo:Foo@Bar.com?x=1".data
        = some "foo@bar.com".data ∧
    pyLower "foo@bar.com".data = "foo@bar.com".data :=
  ⟨by decide, (C9_clean_email_lowercase (fun _ => none) false).1
    "MailTo:Foo@Bar.com?x=1".data "foo@bar.com".data (by decide)⟩

/-! ## Hybrid extractor URL dedup
(`HybridEmailExtractor.extract_from_url`, src/hybrid_email_extractor.py
lines 90-109).

The HTML-processing internals (`_static_pass`, browser rendering) are
opaque function parameters: the claim is about the control flow around
`self._seen_urls`, which is independent of them.  The result is
`(hits, new seen set, whether http_client.safe_get was called)`. -/

/-- The fields of a fetched response that `extract_from_url` inspects. -/
structure FetchedPage where
  contentType : List Char
  text : List Char

/-- `HybridEmailExtractor.extract_from_url`.  `staticPass` models
`_static_pass`, `renderAndExtract` models `_render_and_extract` (with
`none` for a raised exception), `fetch` models `http_client.safe_get`,
`useJs` the resolved `use_js_fallback` mode, `seen` is
`self._seen_urls`. -/
def extract_from_url (staticPass : List Char → List Char → Finset (List Char))
    (renderAndExtract : List Char → Option (Finset (List Char)))
    (fetch : List Char → Option FetchedPage) (useJs : Bool)
    (seen : Finset (List Char)) (url : List Char) :
    Finset (List Char) × Finset (List Char) × Bool :=
  if url ∈ seen then (∅, seen, false)
  else
    let seen1 := insert url seen
    match fetch url with
    | none => (∅, seen1, true)
    | some resp =>
      if ¬ ("html".data <:+: resp.contentType) then (∅, seen1, true)
      else
        let hits := staticPass resp.text url
        if hits ≠ ∅ ∨ ¬useJs then (hits, seen1, true)
        else
          match renderAndExtract url with
          | some rendered => (rendered, seen1, true)
          | none => (∅, seen1, true)

theorem extract_from_url_seen_eq (staticPass renderAndExtract fetch useJs seen url) :
    (extract_from_url staticPass renderAndExtract fetch useJs seen url).2.1
      = if url ∈ seen then seen else insert url seen := by
  unfold extract_from_url
  by_cases h : url ∈ seen
  · simp [h]
  · simp only [if_neg h]
    rcases fetch url with _ | resp
    · simp
    · simp only
      split
      · simp
      · split
        · simp
        · rcases renderAndExtract url with _ | rendered <;> simp

theorem extract_from_url_of_mem (staticPass renderAndExtract fetch useJs seen url)
    (h : url ∈ seen) :
    extract_from_url staticPass renderAndExtract fetch useJs seen url
      = (∅, seen, false) := by
  simp [extract_from_url, h]

/-- **C10.** `extract_from_url` inserts the URL into the seen set
before fetching, so after any first call — whatever its outcome — the
URL is in the seen set, and any subsequent call on the same set (with
any fetch/static/render behaviour whatsoever) returns the empty set
without issuing an HTTP request. -/
theorem C10_extract_from_url_dedup
    (staticPass : List Char → List Char → Finset (List Char))
    (renderAndExtract : List Char → Option (Finset (List Char)))
    (fetch : List Char → Option FetchedPage) (useJs : Bool)
    (seen : Finset (List Char)) (url : List Char) :
    url ∈ (extract_from_url staticPass renderAndExtract fetch useJs seen url).2.1 ∧
    (∀ staticPass2 renderAndExtract2 fetch2 useJs2,
      extract_from_url staticPass2 renderAndExtract2 fetch2 useJs2
          (extract_from_url staticPass renderAndExtract fetch useJs seen url).2.1 url
        = (∅,
           (extract_from_url staticPass renderAndExtract fetch useJs seen url).2.1,
           false)) := by
  have hmem : url ∈ (extract_from_url staticPass renderAndExtract fetch useJs seen url).2.1 := by
    rw [extract_from_url_seen_eq]
    split
    · assumption
    · exact Finset.mem_insert_self _ _
  exact ⟨hmem, fun sp2 re2 f2 u2 => extract_from_url_of_mem sp2 re2 f2 u2 _ url hmem⟩

/-! ## The HTTP client's thread-local visited set
(`HttpClient.safe_get`, src/http.py lines 219-254 and 362-390, and
`_SessionManager.prune`, lines 160-163).

Only the interaction of one `safe_get` call with the thread-local
`visited` set is modelled: the loop guard (line 251, GETs only), the
failure return (lines 367-368, set untouched), the success-path insert
(lines 380-381, GETs only) and the final `_session_mgr.prune()`
(line 389), which clears the set when it holds more than 1000 entries
and which runs on every call that returns a response — HEAD included.
Canonical URLs are an abstract type `α`. -/

inductive SafeGetOutcome
  | skippedLoop
  | failed
  | succeeded
  deriving DecidableEq

/-- `_SessionManager.prune` (`keep = 1000`): `if len(v) > keep: v.clear()`. -/
def prune_visited {α : Type} [DecidableEq α] (keep : Nat) (v : Finset α) : Finset α :=
  if keep < v.card then ∅ else v

/-- The visited-set behaviour of one `HttpClient.safe_get` call with
method HEAD (`headMode = true`) or GET, canonical URL `canon`, and
overall network outcome `respOk` (`response and response.ok` after the
retry loop). -/
def safe_get_visited {α : Type} [DecidableEq α] (headMode : Bool) (canon : α)
    (respOk : Bool) (visited : Finset α) : SafeGetOutcome × Finset α :=
  if ¬headMode ∧ canon ∈ visited then (.skippedLoop, visited)
  else if ¬respOk then (.failed, visited)
  else
    let v1 := if headMode then visited else insert canon visited
    (.succeeded, prune_visited 1000 v1)

/-- **C7 counterexample.** A successful HEAD with 1001 entries in the
thread-local visited set does *not* leave the set unchanged: the final
`prune` clears it.  This refutes the frame part of the claim. -/
theorem C7_head_frame_counterexample :
    (safe_get_visited true (0 : Nat) true (Finset.range 1001)).2
      ≠ Finset.range 1001 := by
  have h : (safe_get_visited true (0 : Nat) true (Finset.range 1001)).2 = ∅ := by
    simp [safe_get_visited, prune_visited, Finset.card_range]
  rw [h]
  exact (Finset.ne_empty_of_mem (Finset.mem_range.mpr (by norm_num : (0:Nat) < 1001))).symm

/-- **C7 (amended).** A HEAD is never skipped by the loop guard and
never inserts into the visited set; a GET is skipped iff its canonical
URL is in the set; the canonical URL is inserted exactly on a
successful unskipped GET; but every call that returns a response — GET
or HEAD — finishes by pruning, which clears the set when it holds more
than 1000 entries.  In particular the HEAD frame property only holds
when the set has at most 1000 entries. -/
theorem C7_safe_get_visited (α : Type) [DecidableEq α] (canon : α)
    (respOk : Bool) (v : Finset α) :
    ((safe_get_visited true canon respOk v).1 ≠ .skippedLoop) ∧
    (v.card ≤ 1000 → (safe_get_visited true canon respOk v).2 = v) ∧
    (respOk = true → 1000 < v.card →
      (safe_get_visited true canon respOk v).2 = ∅) ∧
    (respOk = false → (safe_get_visited true canon respOk v).2 = v) ∧
    ((safe_get_visited false canon respOk v).1 = .skippedLoop ↔ canon ∈ v) ∧
    (canon ∉ v → respOk = true →
      (safe_get_visited false canon respOk v).2
        = prune_visited 1000 (insert canon v)) ∧
    (canon ∉ v → respOk = false →
      (safe_get_visited false canon respOk v).2 = v) := by
  refine ⟨?_, ?_, ?_, ?_, ?_, ?_, ?_⟩
  · cases respOk <;> simp [safe_get_visited]
  · intro hcard
    cases respOk <;> simp [safe_get_visited, prune_visited, Nat.not_lt.mpr hcard]
  · intro hok hcard
    subst hok
    simp [safe_get_visited, prune_visited, hcard]
  · intro hok
    subst hok
    simp [safe_get_visited]
  · constructor
    · intro h
      by_contra hmem
      rcases hok : respOk with _ | _ <;>
        simp [safe_get_visited, hmem, hok] at h
    · intro hmem
      simp [safe_get_visited, hmem]
  · intro hmem hok
    subst hok
    simp [safe_get_visited, hmem]
  · intro hmem hok
    subst hok
    simp [safe_get_visited, hmem]

/-- Witness for C7 at concrete inputs. -/
theorem C7_safe_get_visited_witness :
    (safe_get_visited true (5 : Nat) true {3}).1 ≠ .skippedLoop ∧
    (safe_get_visited true (5 : Nat) true {3}).2 = {3} ∧
    ((safe_get_visited false (5 : Nat) true {3}).1 = .skippedLoop ↔
      (5 : Nat) ∈ ({3} : Finset Nat)) ∧
    (safe_get_visited false (5 : Nat) true {3}).2
      = prune_visited 1000 (insert 5 {3}) := by
  have h := C7_safe_get_visited Nat (5 : Nat) true {3}
  exact ⟨h.1, h.2.1 (by decide), h.2.2.2.2.1,
    h.2.2.2.2.2.1 (by decide) rfl⟩

/-! ## Google search client rate limiting
(`GoogleSearchClient._respect_rate`, src/scraper/google_search.py
lines 55-70, and `search`, lines 72-142).

`_respect_rate` computes `wait = google_safe_interval - (now - last)`
under `_google_lock`, sleeps outside the lock when `wait > 0`, and then
**updates `_last_google_ts` under the lock**; `search` calls
`_respect_rate()` *before* `execute()`.  One attempt is modelled as the
ordered list of its actions, each tagged with whether `_google_lock`
is held while it runs.  Times are exact numbers (`Int`); the claims are
about ordering, not float rounding. -/

inductive SearchAction
  | computeWait (w : Int)
  | sleepFor (w : Int)
  | updateTs
  | apiCall
  deriving DecidableEq

/-- The actions of one `_respect_rate()` call, in order, tagged with
the lock state. -/
def respect_rate_events (safeInterval now lastTs : Int) :
    List (Bool × SearchAction) :=
  let wait := safeInterval - (now - lastTs)
  [(true, .computeWait wait)]
    ++ (if 0 < wait then [(false, .sleepFor wait)] else [])
    ++ [(true, .updateTs)]

/-- The actions of one attempt of `GoogleSearchClient.search`:
`_respect_rate()` followed by the external `execute()` call. -/
def search_attempt_events (safeInterval now lastTs : Int) :
    List (Bool × SearchAction) :=
  respect_rate_events safeInterval now lastTs ++ [(false, .apiCall)]

/-- Position of the first occurrence of action `a`. -/
def actionIdx (a : SearchAction) (evs : List (Bool × SearchAction)) : Nat :=
  evs.findIdx (fun p => p.2 == a)

theorem beq_computeWait_updateTs (w : Int) :
    (SearchAction.computeWait w == SearchAction.updateTs) = false := rfl

theorem beq_sleepFor_updateTs (w : Int) :
    (SearchAction.sleepFor w == SearchAction.updateTs) = false := rfl

theorem beq_computeWait_apiCall (w : Int) :
    (SearchAction.computeWait w == SearchAction.apiCall) = false := rfl

theorem beq_sleepFor_apiCall (w : Int) :
    (SearchAction.sleepFor w == SearchAction.apiCall) = false := rfl

theorem beq_updateTs_apiCall :
    (SearchAction.updateTs == SearchAction.apiCall) = false := rfl

theorem beq_updateTs_updateTs :
    (SearchAction.updateTs == SearchAction.updateTs) = true := rfl

/-- **C5 counterexample.** At `safe_interval = 1, now = 0, last = 0`
the attempt's trace updates the global timestamp *before* the external
call, refuting the claimed order (call first, then update). -/
theorem C5_counterexample :
    ¬ (actionIdx .apiCall (search_attempt_events 1 0 0)
        < actionIdx .updateTs (search_attempt_events 1 0 0)) := by
  decide

/-- **C5 (amended).** In every attempt: the wait is computed, as
`safe_interval - (now - last)`, while the lock is held; any sleep has
exactly that (positive) duration and happens without the lock; and the
global timestamp is updated, under the lock, after sleeping but
*before* the external call executes. -/
theorem C5_search_rate_order (safeInterval now lastTs : Int) :
    ((true, SearchAction.computeWait (safeInterval - (now - lastTs)))
        ∈ search_attempt_events safeInterval now lastTs) ∧
    (∀ held w, (held, SearchAction.sleepFor w)
        ∈ search_attempt_events safeInterval now lastTs →
      held = false ∧ w = safeInterval - (now - lastTs) ∧ 0 < w) ∧
    ((true, SearchAction.updateTs)
        ∈ search_attempt_events safeInterval now lastTs) ∧
    ((false, SearchAction.apiCall)
        ∈ search_attempt_events safeInterval now lastTs) ∧
    (actionIdx .updateTs (search_attempt_events safeInterval now lastTs)
      < actionIdx .apiCall (search_attempt_events safeInterval now lastTs)) := by
  by_cases hpos : 0 < safeInterval - (now - lastTs)
  · simp [search_attempt_events, respect_rate_events, actionIdx, hpos,
      List.findIdx_cons, beq_computeWait_updateTs, beq_sleepFor_updateTs,
      beq_computeWait_apiCall, beq_sleepFor_apiCall, beq_updateTs_apiCall,
      beq_updateTs_updateTs]
  · have hpos' : ¬ (now - lastTs < safeInterval) := by omega
    simp [search_attempt_events, respect_rate_events, actionIdx, hpos, hpos',
      List.findIdx_cons, beq_computeWait_updateTs, beq_sleepFor_updateTs,
      beq_computeWait_apiCall, beq_sleepFor_apiCall, beq_updateTs_apiCall,
      beq_updateTs_updateTs]

/-- Witness for C5 at concrete times. -/
theorem C5_search_rate_order_witness :
    (false = false ∧ (1 : Int) = 1 - (0 - 0) ∧ (0 : Int) < 1) ∧
    actionIdx .updateTs (search_attempt_events 1 0 0)
      < actionIdx .apiCall (search_attempt_events 1 0 0) :=
  ⟨(C5_search_rate_order 1 0 0).2.1 false 1 (by decide),
   (C5_search_rate_order 1 0 0).2.2.2.2⟩

/-! ## Google search retry backoff
(`GoogleSearchClient.search`, src/scraper/google_search.py lines
93-137).

The retry loop starts with `backoff = 1`; on an `HttpError` with
status 403/429 it first doubles `backoff` and then sleeps `backoff`
seconds; on a timeout before the last attempt it sleeps `2**attempt`
seconds; every other outcome leaves the loop.  The per-attempt outcome
of `execute()` is an oracle list; the model returns the executed
sleeps as `(attempt, kind, seconds)` triples. -/

inductive SearchOutcome
  | success
  | httpError (status : Nat)
  | timedOut
  | otherFailure
  deriving DecidableEq

inductive SleepKind
  | quota
  | timeout
  deriving DecidableEq

/-- The sleeps of `GoogleSearchClient.search` given the outcome of
each attempt, from state (`backoff`, `attempt`). -/
def search_sleeps (maxRetries : Nat) : Nat → Nat → List SearchOutcome →
    List (Nat × SleepKind × Nat)
  | _, _, [] => []
  | backoff, attempt, o :: rest =>
    if maxRetries ≤ attempt then []
    else
      match o with
      | .success => []
      | .httpError st =>
          if st = 403 ∨ st = 429 then
            (attempt, .quota, backoff * 2)
              :: search_sleeps maxRetries (backoff * 2) (attempt + 1) rest
          else []
      | .timedOut =>
          if attempt < maxRetries - 1 then
            (attempt, .timeout, 2 ^ attempt)
              :: search_sleeps maxRetries backoff (attempt + 1) rest
          else []
      | .otherFailure => []

/-- The sleeps of one `search` call (`backoff = 1`, `attempt = 0`). -/
def google_search_sleeps (maxRetries : Nat) (outcomes : List SearchOutcome) :
    List (Nat × SleepKind × Nat) :=
  search_sleeps maxRetries 1 0 outcomes

/-- A 403/429 outcome. -/
def isQuotaOutcome : SearchOutcome → Bool
  | .httpError st => st = 403 ∨ st = 429
  | _ => false

/-- **C6 counterexample.** A 403 on the zero-based attempt 0 sleeps 2
seconds, not `2^0 = 1`: the code doubles `backoff` *before* sleeping. -/
theorem C6_counterexample :
    google_search_sleeps 5 [.httpError 403] = [(0, .quota, 2)] ∧
    ¬ (2 = 2 ^ (0 : Nat)) := by
  constructor
  · decide
  · decide

theorem search_sleeps_all_quota (maxRetries : Nat) (outs : List SearchOutcome)
    (h : ∀ o ∈ outs, isQuotaOutcome o = true) :
    ∀ j a k d, (a, k, d) ∈ search_sleeps maxRetries (2 ^ j) j outs →
      k = .quota ∧ d = 2 ^ (a + 1) := by
  induction outs with
  | nil => intro j a k d hmem; simp [search_sleeps] at hmem
  | cons o rest ih =>
    intro j a k d hmem
    have ho : isQuotaOutcome o = true := h o (List.mem_cons_self ..)
    have hrest : ∀ x ∈ rest, isQuotaOutcome x = true :=
      fun x hx => h x (List.mem_cons_of_mem _ hx)
    rcases o with _ | st | _ | _ <;> simp [isQuotaOutcome] at ho
    simp only [search_sleeps] at hmem
    split at hmem
    · simp at hmem
    · rcases List.mem_cons.mp hmem with heq | htail
      · simp only [Prod.mk.injEq] at heq
        obtain ⟨rfl, rfl, rfl⟩ := heq
        exact ⟨rfl, by rw [pow_succ]⟩
      · rw [← pow_succ] at htail
        exact ih hrest (j + 1) a k d htail

theorem search_sleeps_timeout (maxRetries : Nat) (outs : List SearchOutcome) :
    ∀ b j a d, (a, SleepKind.timeout, d) ∈ search_sleeps maxRetries b j outs →
      d = 2 ^ a := by
  induction outs with
  | nil => intro b j a d hmem; simp [search_sleeps] at hmem
  | cons o rest ih =>
    intro b j a d hmem
    rcases o with _ | st | _ | _ <;> simp only [search_sleeps] at hmem
    · split at hmem <;> simp at hmem
    · split at hmem
      · simp at hmem
      · split at hmem
        · rcases List.mem_cons.mp hmem with heq | htail
          · simp only [Prod.mk.injEq] at heq
            exact absurd heq.2.1 (by simp)
          · exact ih (b * 2) (j + 1) a d htail
        · simp at hmem
    · split at hmem
      · simp at hmem
      · split at hmem
        · rcases List.mem_cons.mp hmem with heq | htail
          · simp only [Prod.mk.injEq] at heq
            obtain ⟨rfl, -, rfl⟩ := heq
            rfl
          · exact ih b (j + 1) a d htail
        · simp at hmem
    · split at hmem <;> simp at hmem

/-- **C6 (amended).** On each 403/429 failure the client doubles
`backoff` and then sleeps `backoff` seconds, so when every attempt so
far failed with 403/429 the zero-based attempt `a` sleeps `2^(a+1)`
seconds — not `2^a` as claimed.  (Timeout retries, by contrast, do
sleep exactly `2^attempt` seconds.) -/
theorem C6_google_backoff (maxRetries : Nat) (outs : List SearchOutcome) :
    ((∀ o ∈ outs, isQuotaOutcome o = true) →
      ∀ a k d, (a, k, d) ∈ google_search_sleeps maxRetries outs →
        k = .quota ∧ d = 2 ^ (a + 1)) ∧
    (∀ a d, (a, SleepKind.timeout, d) ∈ google_search_sleeps maxRetries outs →
      d = 2 ^ a) := by
  constructor
  · intro h a k d hmem
    exact search_sleeps_all_quota maxRetries outs h 0 a k d
      (by simpa [google_search_sleeps] using hmem)
  · intro a d hmem
    exact search_sleeps_timeout maxRetries outs 1 0 a d
      (by simpa [google_search_sleeps] using hmem)

/-- Witness for C6: two consecutive quota failures sleep 2 and 4
seconds. -/
theorem C6_google_backoff_witness :
    SleepKind.quota = SleepKind.quota ∧ 4 = 2 ^ (1 + 1) :=
  (C6_google_backoff 5 [.httpError 403, .httpError 429]).1 (by decide)
    1 .quota 4 (by decide)

/-! ## The crawler's worker pool
(`Crawler.crawl_small`, src/crawler.py lines 67-177, and the globals
`go_global_page_count` / `_global_page_lock`, lines 17-19).

Each worker thread runs the loop of lines 108-151.  The atomic steps
are exactly the lock-protected regions and the unlocked fetch:

1. timeout guard (line 111) — a worker at the loop head may exit;
2. queue pop under `self._lock` (lines 115-118) — pop or exit;
3. limit check under `_global_page_lock` (lines 121-123) — exit when
   `go_global_page_count[domain] >= limit`;
4. the fetch, *outside any lock* (line 127) — fails (`continue`,
   nothing counted) or succeeds;
5. increment under `_global_page_lock` (lines 132-134), recording the
   local `current_count`;
6. `_process_response` (line 145), which may append newly discovered
   links to the queue, followed by the `current_count >= limit` exit
   check (line 150).

URLs are abstract tokens (`Nat`); the links appended by step 6 are an
arbitrary list (whatever the fetched page contained, post dedup).  A
crawl starts with counter state `c₀`, the seeded queue, and `W` workers
at the loop head; it has completed when every worker is `done`. -/

inductive WLoc
  | top
  | popped
  | fetching
  | atIncr
  | processing (cur : Nat)
  | done
  deriving DecidableEq

structure CrawlState where
  count : Nat
  queue : List Nat
  workers : List WLoc
  deriving DecidableEq

/-- One atomic step of one worker (the worker occupies the position
between `l` and `r`). -/
inductive CrawlStep (limit : Nat) : CrawlState → CrawlState → Prop
  | timeoutExit (c : Nat) (q : List Nat) (l r : List WLoc) :
      CrawlStep limit ⟨c, q, l ++ WLoc.top :: r⟩ ⟨c, q, l ++ WLoc.done :: r⟩
  | grabEmpty (c : Nat) (l r : List WLoc) :
      CrawlStep limit ⟨c, [], l ++ WLoc.top :: r⟩ ⟨c, [], l ++ WLoc.done :: r⟩
  | grab (c u : Nat) (q : List Nat) (l r : List WLoc) :
      CrawlStep limit ⟨c, u :: q, l ++ WLoc.top :: r⟩ ⟨c, q, l ++ WLoc.popped :: r⟩
  | limitExit (c : Nat) (q : List Nat) (l r : List WLoc) (h : limit ≤ c) :
      CrawlStep limit ⟨c, q, l ++ WLoc.popped :: r⟩ ⟨c, q, l ++ WLoc.done :: r⟩
  | limitPass (c : Nat) (q : List Nat) (l r : List WLoc) (h : c < limit) :
      CrawlStep limit ⟨c, q, l ++ WLoc.popped :: r⟩ ⟨c, q, l ++ WLoc.fetching :: r⟩
  | fetchFail (c : Nat) (q : List Nat) (l r : List WLoc) :
      CrawlStep limit ⟨c, q, l ++ WLoc.fetching :: r⟩ ⟨c, q, l ++ WLoc.top :: r⟩
  | fetchOk (c : Nat) (q : List Nat) (l r : List WLoc) :
      CrawlStep limit ⟨c, q, l ++ WLoc.fetching :: r⟩ ⟨c, q, l ++ WLoc.atIncr :: r⟩
  | increment (c : Nat) (q : List Nat) (l r : List WLoc) :
      CrawlStep limit ⟨c, q, l ++ WLoc.atIncr :: r⟩
        ⟨c + 1, q, l ++ WLoc.processing (c + 1) :: r⟩
  | processLoop (c : Nat) (q : List Nat) (l r : List WLoc) (cur : Nat)
      (links : List Nat) (h : cur < limit) :
      CrawlStep limit ⟨c, q, l ++ WLoc.processing cur :: r⟩
        ⟨c, q ++ links, l ++ WLoc.top :: r⟩
  | processExit (c : Nat) (q : List Nat) (l r : List WLoc) (cur : Nat)
      (links : List Nat) (h : limit ≤ cur) :
      CrawlStep limit ⟨c, q, l ++ WLoc.processing cur :: r⟩
        ⟨c, q ++ links, l ++ WLoc.done :: r⟩

/-- Workers holding a passed limit check that has not yet been turned
into an increment. -/
def isInflight : WLoc → Bool
  | .fetching => true
  | .atIncr => true
  | _ => false

def crawlInflight (ws : List WLoc) : Nat := ws.countP isInflight

theorem crawlInflight_append (l r : List WLoc) :
    crawlInflight (l ++ r) = crawlInflight l + crawlInflight r := by
  simp [crawlInflight, List.countP_append]

theorem crawlInflight_replicate_top (W : Nat) :
    crawlInflight (List.replicate W WLoc.top) = 0 := by
  induction W with
  | zero => rfl
  | succ n ih =>
    simp only [List.replicate_succ, crawlInflight, List.countP_cons] at ih ⊢
    simp [ih, isInflight]

theorem crawlInflight_le_length (ws : List WLoc) :
    crawlInflight ws ≤ ws.length := List.countP_le_length _

/-- The inductive invariant: worker count is preserved and
`count + inflight ≤ (limit - 1) + W`. -/
theorem crawl_invariant (limit W : Nat) (c0 : Nat) (q0 : List Nat)
    (hc0 : c0 = 0) (s : CrawlState)
    (h : Relation.ReflTransGen (CrawlStep limit)
      ⟨c0, q0, List.replicate W WLoc.top⟩ s) :
    s.workers.length = W ∧
      s.count + crawlInflight s.workers ≤ (limit - 1) + W := by
  induction h with
  | refl =>
    refine ⟨List.length_replicate .., ?_⟩
    dsimp only
    rw [hc0, crawlInflight_replicate_top]
    omega
  | tail hr hstep ih =>
    obtain ⟨ihlen, ihbound⟩ := ih
    cases hstep with
    | limitPass c q l r hlim =>
      refine ⟨by simpa using ihlen, ?_⟩
      have hlen : l.length + r.length + 1 = W := by
        simpa [List.length_append] using ihlen
      have h1 : List.countP isInflight l ≤ l.length := List.countP_le_length _
      have h2 : List.countP isInflight r ≤ r.length := List.countP_le_length _
      simp only [crawlInflight, List.countP_append, List.countP_cons,
        isInflight] at ihbound ⊢
      simp at ihbound ⊢
      omega
    | timeoutExit c q l r =>
      refine ⟨by simpa using ihlen, ?_⟩
      simp only [crawlInflight, List.countP_append, List.countP_cons,
        isInflight] at ihbound ⊢
      simp at ihbound ⊢
      omega
    | grabEmpty c l r =>
      refine ⟨by simpa using ihlen, ?_⟩
      simp only [crawlInflight, List.countP_append, List.countP_cons,
        isInflight] at ihbound ⊢
      simp at ihbound ⊢
      omega
    | grab c u q l r =>
      refine ⟨by simpa using ihlen, ?_⟩
      simp only [crawlInflight, List.countP_append, List.countP_cons,
        isInflight] at ihbound ⊢
      simp at ihbound ⊢
      omega
    | limitExit c q l r hlim =>
      refine ⟨by simpa using ihlen, ?_⟩
      simp only [crawlInflight, List.countP_append, List.countP_cons,
        isInflight] at ihbound ⊢
      simp at ihbound ⊢
      omega
    | fetchFail c q l r =>
      refine ⟨by simpa using ihlen, ?_⟩
      simp only [crawlInflight, List.countP_append, List.countP_cons,
        isInflight] at ihbound ⊢
      simp at ihbound ⊢
      omega
    | fetchOk c q l r =>
      refine ⟨by simpa using ihlen, ?_⟩
      simp only [crawlInflight, List.countP_append, List.countP_cons,
        isInflight] at ihbound ⊢
      simp at ihbound ⊢
      omega
    | increment c q l r =>
      refine ⟨by simpa using ihlen, ?_⟩
      simp only [crawlInflight, List.countP_append, List.countP_cons,
        isInflight] at ihbound ⊢
      simp at ihbound ⊢
      omega
    | processLoop c q l r cur links hcur =>
      refine ⟨by simpa using ihlen, ?_⟩
      simp only [crawlInflight, List.countP_append, List.countP_cons,
        isInflight] at ihbound ⊢
      simp at ihbound ⊢
      omega
    | processExit c q l r cur links hcur =>
      refine ⟨by simpa using ihlen, ?_⟩
      simp only [crawlInflight, List.countP_append, List.countP_cons,
        isInflight] at ihbound ⊢
      simp at ihbound ⊢
      omega

/-- **C1 counterexample.** With limit 2 and two workers, a crawl
starting from a freshly reset counter and the seeded queue can complete
(both workers `done`) with `pages_fetched = 3 > 2`: both workers pass
the pre-fetch limit check at count 1 and then both increment.  The
trace is an interleaving in which page 0 links to pages 1 and 2. -/
theorem C1_counterexample :
    Relation.ReflTransGen (CrawlStep 2) ⟨0, [0], [WLoc.top, WLoc.top]⟩
        ⟨3, [], [WLoc.done, WLoc.done]⟩ ∧
    (∀ w ∈ [WLoc.done, WLoc.done], w = WLoc.done) ∧ ¬ (3 ≤ 2) := by
  refine ⟨?_, by simp, by omega⟩
  refine .head (CrawlStep.grab 0 0 [] [] [WLoc.top]) ?_
  refine .head (CrawlStep.limitPass 0 [] [] [WLoc.top] (by omega)) ?_
  refine .head (CrawlStep.fetchOk 0 [] [] [WLoc.top]) ?_
  refine .head (CrawlStep.increment 0 [] [] [WLoc.top]) ?_
  refine .head (CrawlStep.processLoop 1 [] [] [WLoc.top] 1 [1, 2] (by omega)) ?_
  refine .head (CrawlStep.grab 1 1 [2] [] [WLoc.top]) ?_
  refine .head (CrawlStep.grab 1 2 [] [WLoc.popped] []) ?_
  refine .head (CrawlStep.limitPass 1 [] [] [WLoc.popped] (by omega)) ?_
  refine .head (CrawlStep.limitPass 1 [] [WLoc.fetching] [] (by omega)) ?_
  refine .head (CrawlStep.fetchOk 1 [] [] [WLoc.fetching]) ?_
  refine .head (CrawlStep.fetchOk 1 [] [WLoc.atIncr] []) ?_
  refine .head (CrawlStep.increment 1 [] [] [WLoc.atIncr]) ?_
  refine .head (CrawlStep.increment 2 [] [WLoc.processing 2] []) ?_
  refine .head (CrawlStep.processExit 3 [] [] [WLoc.processing 3] 2 [] (by omega)) ?_
  refine .head (CrawlStep.processExit 3 [] [WLoc.done] [] 3 [] (by omega)) ?_
  exact .refl

/-- **C1 (amended).** For a crawl started with a freshly reset counter,
every reachable state — in particular every completed one — satisfies
`pages_fetched ≤ limit - 1 + num_workers`: the counter can overshoot
the limit by up to `num_workers - 1` because the limit check (step 3)
and the increment (step 5) are separate critical sections, but by no
more.  With a single worker the claimed bound `pages_fetched ≤ limit`
holds. -/
theorem C1_crawl_page_bound (limit W : Nat) (q0 : List Nat) (s : CrawlState)
    (h : Relation.ReflTransGen (CrawlStep limit)
      ⟨0, q0, List.replicate W WLoc.top⟩ s) :
    s.count ≤ (limit - 1) + W := by
  have := (crawl_invariant limit W 0 q0 rfl s h).2
  omega

/-- Witness for C1 at a concrete completed crawl (the counterexample
trace, with `limit - 1 + W = 3`). -/
theorem C1_crawl_page_bound_witness :
    (⟨3, [], [WLoc.done, WLoc.done]⟩ : CrawlState).count ≤ (2 - 1) + 2 := by
  have htrace : Relation.ReflTransGen (CrawlStep 2)
      ⟨0, [0], List.replicate 2 WLoc.top⟩ ⟨3, [], [WLoc.done, WLoc.done]⟩ := by
    have h2 : List.replicate 2 WLoc.top = [WLoc.top, WLoc.top] := rfl
    rw [h2]
    exact C1_counterexample.1
  exact C1_crawl_page_bound 2 2 [0] _ htrace

/-! ## Per-domain page counters across the engine
(`go_global_page_count`, src/crawler.py line 18;
`Crawler.reset_counters`, lines 62-65; `Orchestrator.process_company`,
src/scraper/orchestrator.py line 61; `Orchestrator.reset_stats`,
lines 43-46). -/

/-- The process-wide `go_global_page_count` map (`defaultdict(int)`:
every domain reads 0 until written). -/
def PageCounts : Type := List Char → Nat

/-- `Crawler.reset_counters`: `go_global_page_count.clear()` — after
which every domain reads 0 again. -/
def reset_counters (_m : PageCounts) : PageCounts := fun _ => 0

/-- The first statement of `Orchestrator.process_company` (line 61)
is `crawler.reset_counters()`. -/
def process_company_counter_effect (m : PageCounts) : PageCounts :=
  reset_counters m

/-- **C2 counterexample.** The orchestrator's per-company processing
*does* clear the per-domain counters: starting from a counter reading 5
for some domain, `process_company` leaves it reading 0 < 5, so
`pages_fetched` is not monotonically non-decreasing over the process
lifetime. -/
theorem C2_counterexample :
    process_company_counter_effect (fun _ => 5) "example.com".data
      < (fun _ => 5 : PageCounts) "example.com".data := by
  show (0 : Nat) < 5
  omega

/-- **C2 (amended).** Within a crawl the counter never decreases (no
crawler step lowers `pages_fetched`), but `Crawler.reset_counters` —
executed at the start of every `Orchestrator.process_company` and by
`reset_stats` — clears every per-domain counter to zero. -/
theorem C2_counter_monotone (limit : Nat) :
    (∀ s s' : CrawlState, CrawlStep limit s s' → s.count ≤ s'.count) ∧
    (∀ (m : PageCounts) (d : List Char), reset_counters m d = 0) := by
  constructor
  · intro s s' h
    cases h <;> simp
  · intro m d
    rfl

/-- Witness for C2 at a concrete crawler step. -/
theorem C2_counter_monotone_witness :
    (⟨0, [], [WLoc.top]⟩ : CrawlState).count
      ≤ (⟨0, [], [WLoc.done]⟩ : CrawlState).count ∧
    reset_counters (fun _ => 5) "example.com".data = 0 :=
  ⟨(C2_counter_monotone 1).1 ⟨0, [], [WLoc.top]⟩ ⟨0, [], [WLoc.done]⟩
      (CrawlStep.grabEmpty 0 [] []),
   (C2_counter_monotone 1).2 (fun _ => 5) "example.com".data⟩

/-! ## URL parsing (CPython `urllib.parse`, as used by
`canonicalise` in src/http.py and `Crawler._canonicalize_url` in
src/crawler.py)

`urlsplit` is modelled after CPython ≥ 3.10: strip *leading* C0
control/space characters, remove every tab/CR/LF, split a valid scheme
(first `:` with an ASCII-alpha head and `[A-Za-z0-9+.-]` body,
lowercased), a `//`-netloc up to `/?#`, then fragment at the first `#`
and query at the first `?`.  `urlparse` additionally splits `;params`
off the last path segment.  The bracketed-IPv6 and non-ASCII-netloc
checks, which can only raise `ValueError`, are not modelled; no input
below contains brackets or non-ASCII hosts.  Percent decoding is exact
for single-byte (ASCII) sequences. -/

def isAsciiAlphaChar (c : Char) : Bool :=
  (65 ≤ c.toNat ∧ c.toNat ≤ 90) ∨ (97 ≤ c.toNat ∧ c.toNat ≤ 122)

def isAsciiDigitChar (c : Char) : Bool := 48 ≤ c.toNat ∧ c.toNat ≤ 57

/-- `scheme_chars` of `urllib.parse`. -/
def isSchemeChar (c : Char) : Bool :=
  isAsciiAlphaChar c ∨ isAsciiDigitChar c ∨ c = '+' ∨ c = '-' ∨ c = '.'

/-- `_UNSAFE_URL_BYTES_TO_REMOVE`: tab (9), CR (13), LF (10). -/
def isUnsafeUrlChar (c : Char) : Bool :=
  c.toNat = 9 ∨ c.toNat = 13 ∨ c.toNat = 10

/-- `_WHATWG_C0_CONTROL_OR_SPACE`. -/
def isC0OrSpace (c : Char) : Bool := c.toNat ≤ 32

/-- `url.lstrip(C0-or-space)` followed by removing tab/CR/LF. -/
def cleanUrl (u : List Char) : List Char :=
  (u.dropWhile isC0OrSpace).filter fun c => ! isUnsafeUrlChar c

/-- The scheme split of `urlsplit` (with the caller's default
scheme). -/
def splitScheme (dflt : List Char) (u : List Char) : List Char × List Char :=
  let pre := u.takeWhile (· ≠ ':')
  if pre.length < u.length ∧ pre ≠ [] ∧ isAsciiAlphaChar (pre.headD ' ')
      ∧ pre.tail.all isSchemeChar
  then (pyLower pre, u.drop (pre.length + 1))
  else (dflt, u)

/-- The netloc delimiters `/?#` (47, 63, 35). -/
def isNetlocStop (c : Char) : Bool :=
  c.toNat = 47 ∨ c.toNat = 63 ∨ c.toNat = 35

/-- `_splitnetloc(url, 2)`: netloc from index 2 up to the first of
`/?#`. -/
def splitNetlocFrom (u : List Char) : List Char × List Char :=
  ((u.drop 2).takeWhile (fun c => ! isNetlocStop c),
   (u.drop 2).dropWhile (fun c => ! isNetlocStop c))

/-- `url.split(sep, 1)`: `(before, after)` of the first occurrence,
`(url, "")` when absent. -/
def splitOnFirst (sep : Char) (u : List Char) : List Char × List Char :=
  (u.takeWhile (· ≠ sep), (u.dropWhile (· ≠ sep)).tail)

structure SplitUrl where
  scheme : List Char
  netloc : List Char
  path : List Char
  query : List Char
  fragment : List Char
  deriving DecidableEq

/-- `urllib.parse.urlsplit(u, scheme=dflt)`. -/
def pyUrlsplit (dflt u : List Char) : SplitUrl :=
  let u0 := cleanUrl u
  let su := splitScheme dflt u0
  let nu := if su.2.take 2 = ['/', '/'] then splitNetlocFrom su.2 else ([], su.2)
  let fu := splitOnFirst '#' nu.2
  let qu := splitOnFirst '?' fu.1
  ⟨su.1, nu.1, qu.1, qu.2, fu.2⟩

/-- `s.rfind(c)` as an index option. -/
def pyRfindIdx (c : Char) (s : List Char) : Option Nat :=
  (s.reverse.findIdx? (· = c)).map fun j => s.length - 1 - j

/-- `s.find(c, start)` as an index option. -/
def pyFindIdxFrom (c : Char) (s : List Char) (start : Nat) : Option Nat :=
  ((s.drop start).findIdx? (· = c)).map fun j => start + j

/-- `urllib.parse._splitparams` (only called when `';' in url`). -/
def splitparams (p : List Char) : List Char × List Char :=
  if '/' ∈ p then
    match pyFindIdxFrom ';' p ((pyRfindIdx '/' p).getD 0) with
    | some i => (p.take i, p.drop (i + 1))
    | none => (p, [])
  else
    match pyFindIdxFrom ';' p 0 with
    | some i => (p.take i, p.drop (i + 1))
    | none => (p, [])

structure ParsedUrl where
  scheme : List Char
  netloc : List Char
  path : List Char
  params : List Char
  query : List Char
  fragment : List Char
  deriving DecidableEq

/-- `urllib.parse.urlparse(u, scheme=dflt)`. -/
def pyUrlparse (dflt u : List Char) : ParsedUrl :=
  let s := pyUrlsplit dflt u
  if ';' ∈ s.path then
    let pp := splitparams s.path
    ⟨s.scheme, s.netloc, pp.1, pp.2, s.query, s.fragment⟩
  else ⟨s.scheme, s.netloc, s.path, [], s.query, s.fragment⟩

/-- `urllib.parse.uses_netloc` (CPython 3.11). -/
def usesNetloc : List (List Char) :=
  ["".data, "ftp".data, "http".data, "gopher".data, "nntp".data,
   "telnet".data, "imap".data, "wais".data, "file".data, "mms".data,
   "https".data, "shttp".data, "snews".data, "prospero".data, "rtsp".data,
   "rtsps".data, "rtspu".data, "rsync".data, "svn".data, "svn+ssh".data,
   "sftp".data, "nfs".data, "git".data, "git+ssh".data, "ws".data,
   "wss".data]

/-- `urllib.parse.uses_relative` (CPython 3.11). -/
def usesRelative : List (List Char) :=
  ["".data, "ftp".data, "http".data, "gopher".data, "nntp".data,
   "imap".data, "wais".data, "file".data, "https".data, "shttp".data,
   "mms".data, "prospero".data, "rtsp".data, "rtsps".data, "rtspu".data,
   "sftp".data, "svn".data, "svn+ssh".data, "ws".data, "wss".data]

/-- `urllib.parse.urlunsplit` (CPython 3.11: the `//` is emitted when
there is a netloc, or when the scheme uses a netloc and the path does
not already start with `//`). -/
def pyUrlunsplit (scheme netloc path query fragment : List Char) : List Char :=
  let url1 :=
    if netloc ≠ [] ∨ (scheme ≠ [] ∧ scheme ∈ usesNetloc ∧ path.take 2 ≠ ['/', '/'])
    then
      ['/', '/'] ++ netloc
        ++ (if path ≠ [] ∧ path.take 1 ≠ ['/'] then '/' :: path else path)
    else path
  let url2 := if scheme ≠ [] then scheme ++ ':' :: url1 else url1
  let url3 := if query ≠ [] then url2 ++ '?' :: query else url2
  if fragment ≠ [] then url3 ++ '#' :: fragment else url3

/-- `urllib.parse.urlunparse`. -/
def pyUrlunparse (scheme netloc path params query fragment : List Char) :
    List Char :=
  pyUrlunsplit scheme netloc
    (if params ≠ [] then path ++ ';' :: params else path) query fragment

/-- `host.removeprefix("www.")`. -/
def stripWww (s : List Char) : List Char :=
  if s.take 4 = "www.".data then s.drop 4 else s

/-- `path.rstrip("/")`. -/
def rstripSlash (s : List Char) : List Char :=
  (s.reverse.dropWhile (· = '/')).reverse

/-- `canonicalise` (src/http.py lines 51-55):
lowercase scheme and host, strip one leading `www.`, strip trailing
slashes from the path (defaulting to `/`), drop params, query and
fragment. -/
def canonicalise (u : List Char) : List Char :=
  let p := pyUrlparse [] u
  let host := stripWww (pyLower p.netloc)
  let path := if rstripSlash p.path = [] then ['/'] else rstripSlash p.path
  pyUrlunparse (pyLower p.scheme) host path [] [] []

/-- `validate_url` (src/http.py lines 57-68), with
`config.max_url_length` as a parameter. -/
def validate_url (maxLen : Nat) (u : List Char) : Bool :=
  if u = [] ∨ maxLen < u.length then false
  else
    let p := pyUrlparse [] u
    if ¬ (p.scheme = "http".data ∨ p.scheme = "https".data) ∨ p.netloc = []
    then false
    else if "file:".data.isPrefixOf (pyLower u)
        ∨ "data:".data.isPrefixOf (pyLower u)
        ∨ "javascript:".data.isPrefixOf (pyLower u) then false
    else true

/-- `normalise_domain` (src/http.py lines 404-413). -/
def normalise_domain (u : List Char) : List Char :=
  let host := if "http://".data.isPrefixOf u ∨ "https://".data.isPrefixOf u
    then (pyUrlparse [] u).netloc else u
  stripWww (pyLower host)

/-! ## Query strings (`parse_qsl` / `urlencode`, used by
`Crawler._canonicalize_url`)

Percent decoding/encoding is modelled byte-for-byte; it agrees with
CPython for codepoints below 128 (multi-byte UTF-8 is out of scope; no
theorem below uses non-ASCII queries). -/

/-- `str.split(sep)` with all (possibly empty) pieces. -/
def splitAllOn (sep : Char) : List Char → List (List Char)
  | [] => [[]]
  | c :: rest =>
    match splitAllOn sep rest with
    | [] => [[]]
    | h :: t => if c = sep then [] :: h :: t else (c :: h) :: t

/-- `urllib.parse.unquote` for single-byte sequences: each `%XX` with
two hex digits becomes one character; a `%` not followed by two hex
digits is kept literally. -/
def pyUnquote : List Char → List Char
  | [] => []
  | '%' :: c1 :: c2 :: rest =>
    match hexDigitVal c1, hexDigitVal c2 with
    | some hi, some lo => Char.ofNat (16 * hi + lo) :: pyUnquote rest
    | _, _ => '%' :: pyUnquote (c1 :: c2 :: rest)
  | c :: rest => c :: pyUnquote rest

/-- `s.replace('+', ' ')`. -/
def plusToSpace (s : List Char) : List Char :=
  s.map fun c => if c = '+' then ' ' else c

/-- `parse_qsl(qs, keep_blank_values=True)` (separator `&`). -/
def parse_qsl (qs : List Char) : List (List Char × List Char) :=
  if qs = [] then []
  else
    (splitAllOn '&' qs).filterMap fun nv =>
      if nv = [] then none
      else
        let p := splitOnFirst '=' nv
        let value := if '=' ∈ nv then p.2 else []
        some (pyUnquote (plusToSpace p.1), pyUnquote (plusToSpace value))

/-- The `_ALWAYS_SAFE` characters of `urllib.parse.quote`. -/
def isAlwaysSafe (c : Char) : Bool :=
  isAsciiAlphaChar c ∨ isAsciiDigitChar c ∨ c = '_' ∨ c = '.' ∨ c = '-' ∨ c = '~'

def toHexDigitUpper (n : Nat) : Char :=
  if n < 10 then Char.ofNat (48 + n) else Char.ofNat (65 + (n - 10))

def pyQuoteChar (extraSafe : List Char) (c : Char) : List Char :=
  if isAlwaysSafe c ∨ c ∈ extraSafe then [c]
  else ['%', toHexDigitUpper (c.toNat / 16), toHexDigitUpper (c.toNat % 16)]

/-- `urllib.parse.quote(s, safe=extraSafe)`. -/
def pyQuote (extraSafe : List Char) (s : List Char) : List Char :=
  (s.map (pyQuoteChar extraSafe)).flatten

/-- `urllib.parse.quote_plus(s, safe='')`. -/
def pyQuotePlus (s : List Char) : List Char :=
  if ' ' ∈ s then (pyQuote [' '] s).map fun c => if c = ' ' then '+' else c
  else pyQuote [] s

def joinSep (sep : Char) : List (List Char) → List Char
  | [] => []
  | [x] => x
  | x :: y :: rest => x ++ sep :: joinSep sep (y :: rest)

/-- `urlencode(pairs)` with the default `quote_via=quote_plus`. -/
def pyUrlencode (pairs : List (List Char × List Char)) : List Char :=
  joinSep '&' (pairs.map fun kv => pyQuotePlus kv.1 ++ '=' :: pyQuotePlus kv.2)

/-- Python string `<` (lexicographic on code points). -/
def strLtB : List Char → List Char → Bool
  | [], [] => false
  | [], _ :: _ => true
  | _ :: _, [] => false
  | a :: xs, b :: ys =>
    if a.toNat < b.toNat then true
    else if b.toNat < a.toNat then false
    else strLtB xs ys

/-- Python tuple `<=` on `(str, str)` pairs, as used by `list.sort()`. -/
def pairLeB (p q : List Char × List Char) : Bool :=
  if strLtB p.1 q.1 then true
  else if strLtB q.1 p.1 then false
  else ! strLtB q.2 p.2

/-- Stable insertion: place `x` after every already-placed element
`≤` it. -/
def insertLe {α : Type} (le : α → α → Bool) (x : α) : List α → List α
  | [] => [x]
  | y :: ys => if le y x then y :: insertLe le x ys else x :: y :: ys

/-- A stable sort (`list.sort()` is stable; any stable sort computes
the same list for a total preorder). -/
def stableSort {α : Type} (le : α → α → Bool) (l : List α) : List α :=
  l.foldl (fun acc x => insertLe le x acc) []

/-- `Crawler._canonicalize_url` (src/crawler.py lines 38-50): keep
scheme/host case, `www.`, trailing slash and params; drop the fragment;
drop `utm_*` query parameters and sort the rest. -/
def canonicalize_url (u : List Char) : List Char :=
  let p := pyUrlparse [] u
  let pairs := parse_qsl p.query
  let filtered := pairs.filter fun kv => ! "utm_".data.isPrefixOf kv.1
  let sortedPairs := stableSort pairLeB filtered
  let normalizedQuery := pyUrlencode sortedPairs
  pyUrlunparse p.scheme p.netloc p.path p.params normalizedQuery []

/-! ## `urljoin` (CPython 3.11) and the crawler's link enqueueing
(`Crawler._process_response`, src/crawler.py lines 199-216). -/

/-- `segments[1:-1] = filter(None, segments[1:-1])`. -/
def filterMiddleEmpties : List (List Char) → List (List Char)
  | [] => []
  | [x] => [x]
  | x :: y :: rest =>
    x :: (((y :: rest).dropLast.filter (· ≠ [])) ++ [(y :: rest).getLast (by simp)])

/-- The `..`/`.` resolution loop of `urljoin`. -/
def resolveDots (segs : List (List Char)) : List (List Char) :=
  segs.foldl
    (fun acc seg =>
      if seg = "..".data then acc.dropLast
      else if seg = ".".data then acc
      else acc ++ [seg]) []

/-- `urllib.parse.urljoin`. -/
def pyUrljoin (base url : List Char) : List Char :=
  if base = [] then url
  else if url = [] then base
  else
    let b := pyUrlparse [] base
    let u := pyUrlparse b.scheme url
    if u.scheme ≠ b.scheme ∨ u.scheme ∉ usesRelative then url
    else if u.scheme ∈ usesNetloc ∧ u.netloc ≠ [] then
      pyUrlunparse u.scheme u.netloc u.path u.params u.query u.fragment
    else
      let netloc := if u.scheme ∈ usesNetloc then b.netloc else u.netloc
      if u.path = [] ∧ u.params = [] then
        let query := if u.query = [] then b.query else u.query
        pyUrlunparse u.scheme netloc b.path b.params query u.fragment
      else
        let baseParts0 := splitAllOn '/' b.path
        let baseParts :=
          if baseParts0.getLast? ≠ some [] then baseParts0.dropLast else baseParts0
        let segments :=
          if u.path.take 1 = ['/'] then splitAllOn '/' u.path
          else filterMiddleEmpties (baseParts ++ splitAllOn '/' u.path)
        let resolved0 := resolveDots segments
        let resolved :=
          if segments.getLast? = some ".".data ∨ segments.getLast? = some "..".data
          then resolved0 ++ [[]] else resolved0
        let newPath := if joinSep '/' resolved = [] then ['/'] else joinSep '/' resolved
        pyUrlunparse u.scheme netloc newPath u.params u.query u.fragment

/-- One iteration of the link loop of `Crawler._process_response`
(lines 201-216) on state `(seen urls, queue)`: strip the href, skip
`mailto:`, resolve against the page URL, validate, require the
normalised host to contain the crawl domain as a substring, then — the
dedup — canonicalise with `_canonicalize_url` and enqueue iff the key
is not in the seen set, adding it. -/
def crawlerLinkStep (domain pageUrl : List Char) (maxLen : Nat)
    (st : List (List Char) × List (List Char)) (href : List Char) :
    List (List Char) × List (List Char) :=
  let href := pyStrip href
  if "mailto:".data.isPrefixOf (pyLower href) then st
  else
    let full := pyUrljoin pageUrl href
    if ¬ validate_url maxLen full then st
    else if ¬ (domain <:+: normalise_domain (pyUrlparse [] full).netloc) then st
    else
      let canon := canonicalize_url full
      if canon ∈ st.1 then st
      else (canon :: st.1, st.2 ++ [canon])

/-- The link loop of `Crawler._process_response` over the page's
anchors. -/
def process_response_links (domain pageUrl : List Char) (maxLen : Nat)
    (seen queue : List (List Char)) (hrefs : List (List Char)) :
    List (List Char) × List (List Char) :=
  hrefs.foldl (crawlerLinkStep domain pageUrl maxLen) (seen, queue)

/-- **C4 counterexample.** Two links that differ only in their query
string get *different* dedup keys and are both enqueued:
`_canonicalize_url` keeps the (non-`utm_`) query, unlike the
glossary's canonical URL. -/
theorem C4_counterexample :
    (process_response_links "example.com".data "https://example.com/".data 2000
        [] [] ["https://example.com/p?x=1".data, "https://example.com/p".data]).2
      = ["https://example.com/p?x=1".data, "https://example.com/p".data] ∧
    canonicalize_url "https://example.com/p?x=1".data
      ≠ canonicalize_url "https://example.com/p".data := by
  constructor
  · decide
  · decide

/-- **C4 (amended).** The key inserted into the per-crawl seen set is
`Crawler._canonicalize_url(urljoin(page_url, href.strip()))`, whose
`urlparse` lowercases the scheme but which *preserves* host case, any
`www.` prefix, the trailing slash and non-`utm_` query parameters
(sorted), and drops only the fragment and `utm_*` parameters; each key
is enqueued at most once (enqueue happens iff the key is not in the
seen set, which then gains it), links differing only in fragment,
scheme case, `utm_*` parameters or query order share one key, but
links differing in query string or host case get distinct keys. -/
theorem C4_crawler_dedup_key (domain pageUrl : List Char) (maxLen : Nat)
    (seen queue : List (List Char)) (href : List Char) :
    (canonicalize_url (pyUrljoin pageUrl (pyStrip href)) ∈ seen →
      crawlerLinkStep domain pageUrl maxLen (seen, queue) href = (seen, queue)) ∧
    (crawlerLinkStep domain pageUrl maxLen (seen, queue) href = (seen, queue) ∨
      (crawlerLinkStep domain pageUrl maxLen (seen, queue) href
          = (canonicalize_url (pyUrljoin pageUrl (pyStrip href)) :: seen,
             queue ++ [canonicalize_url (pyUrljoin pageUrl (pyStrip href))]) ∧
        canonicalize_url (pyUrljoin pageUrl (pyStrip href)) ∉ seen)) ∧
    (canonicalize_url "https://example.com/p#sec".data
        = canonicalize_url "https://example.com/p".data) ∧
    (canonicalize_url "https://example.com/p?utm_source=x&z=1".data
        = canonicalize_url "https://example.com/p?z=1".data) ∧
    (canonicalize_url "https://example.com/p?b=2&a=1".data
        = canonicalize_url "https://example.com/p?a=1&b=2".data) ∧
    (canonicalize_url "HTTPS://example.com/p".data
        = canonicalize_url "https://example.com/p".data) ∧
    (canonicalize_url "https://WWW.Example.com/p/".data
        ≠ canonicalize_url "https://example.com/p".data) := by
  refine ⟨?_, ?_, by decide, by decide, by decide, by decide, by decide⟩
  · intro hmem
    simp only [crawlerLinkStep]
    split_ifs with h1 h2 h3
    · rfl
    · rfl
    · rfl
    · rfl
  · simp only [crawlerLinkStep]
    split_ifs with h1 h2 h3 h4
    · exact Or.inl rfl
    · exact Or.inl rfl
    · refine Or.inr ⟨rfl, ?_⟩
      assumption
    · exact Or.inl rfl
    · exact Or.inl rfl

/-- Witness for C4 at a concrete seen set containing the key. -/
theorem C4_crawler_dedup_key_witness :
    crawlerLinkStep "example.com".data "https://example.com/".data 2000
        (["https://example.com/p".data], []) "https://example.com/p".data
      = (["https://example.com/p".data], []) :=
  (C4_crawler_dedup_key "example.com".data "https://example.com/".data 2000
      ["https://example.com/p".data] [] "https://example.com/p".data).1
    (by decide)

/-- **C3 counterexample.** `canonicalise` is not idempotent on every
URL: a host beginning `www.www.` loses one `www.` per application
(`removeprefix` strips a single prefix), so
`canonicalise(canonicalise(U)) ≠ canonicalise(U)` at
`U = "http://www.www.example.com"`. -/
theorem C3_counterexample :
    canonicalise "http://www.www.example.com".data
        = "http://www.example.com/".data ∧
    canonicalise (canonicalise "http://www.www.example.com".data)
        = "http://example.com/".data ∧
    canonicalise (canonicalise "http://www.www.example.com".data)
        ≠ canonicalise "http://www.www.example.com".data := by
  refine ⟨by decide, by decide, by decide⟩

/-! ### Helper lemmas for the canonicalisation round trip (C3) -/

theorem takeWhile_append_all {α : Type} (p : α → Bool) (a b : List α)
    (h : ∀ x ∈ a, p x = true) :
    (a ++ b).takeWhile p = a ++ b.takeWhile p := by
  induction a with
  | nil => simp
  | cons c t ih =>
    simp [List.takeWhile_cons, h c (List.mem_cons_self ..),
      ih fun x hx => h x (List.mem_cons_of_mem _ hx)]

theorem dropWhile_append_all {α : Type} (p : α → Bool) (a b : List α)
    (h : ∀ x ∈ a, p x = true) :
    (a ++ b).dropWhile p = b.dropWhile p := by
  induction a with
  | nil => simp
  | cons c t ih =>
    simp [List.dropWhile_cons, h c (List.mem_cons_self ..),
      ih fun x hx => h x (List.mem_cons_of_mem _ hx)]

theorem takeWhile_sep_append (sep : Char) (a b : List Char) (h : sep ∉ a) :
    (a ++ sep :: b).takeWhile (· ≠ sep) = a := by
  rw [takeWhile_append_all _ a _ (fun x hx => by
    simp only [decide_eq_true_eq]
    exact fun heq => h (heq ▸ hx))]
  simp [List.takeWhile_cons]

theorem dropWhile_sep_append (sep : Char) (a b : List Char) (h : sep ∉ a) :
    (a ++ sep :: b).dropWhile (· ≠ sep) = sep :: b := by
  rw [dropWhile_append_all _ a _ (fun x hx => by
    simp only [decide_eq_true_eq]
    exact fun heq => h (heq ▸ hx))]
  simp [List.dropWhile_cons]

theorem splitOnFirst_not_mem (sep : Char) (u : List Char) (h : sep ∉ u) :
    splitOnFirst sep u = (u, []) := by
  have hall : ∀ x ∈ u, (fun x => decide (x ≠ sep)) x = true := fun x hx => by
    simp only [decide_eq_true_eq]
    exact fun heq => h (heq ▸ hx)
  unfold splitOnFirst
  rw [List.takeWhile_eq_self_iff.mpr hall, List.dropWhile_eq_nil_iff.mpr hall]
  rfl

theorem splitOnFirst_append (sep : Char) (a b : List Char) (h : sep ∉ a) :
    splitOnFirst sep (a ++ sep :: b) = (a, b) := by
  unfold splitOnFirst
  rw [takeWhile_sep_append sep a b h, dropWhile_sep_append sep a b h]
  rfl

/-- Either `pyLowerChar` fixes `c`, or `c` is `A`-`Z` and the result
is the matching `a`-`z`. -/
theorem pyLowerChar_spec (c : Char) :
    pyLowerChar c = c ∨
      (65 ≤ c.toNat ∧ c.toNat ≤ 90 ∧ (pyLowerChar c).toNat = c.toNat + 32) := by
  unfold pyLowerChar
  split
  · next h => exact Or.inr ⟨h.1, h.2, toNat_charOfNat (by omega)⟩
  · exact Or.inl rfl

theorem isNetlocStop_pyLowerChar (c : Char) :
    isNetlocStop (pyLowerChar c) = isNetlocStop c := by
  rcases pyLowerChar_spec c with h | ⟨h1, h2, h3⟩
  · rw [h]
  · have ha : isNetlocStop c = false := by simp only [isNetlocStop]; simp; omega
    have hb : isNetlocStop (pyLowerChar c) = false := by
      simp only [isNetlocStop]; simp; omega
    rw [ha, hb]

theorem isUnsafeUrlChar_pyLowerChar (c : Char) :
    isUnsafeUrlChar (pyLowerChar c) = isUnsafeUrlChar c := by
  rcases pyLowerChar_spec c with h | ⟨h1, h2, h3⟩
  · rw [h]
  · have ha : isUnsafeUrlChar c = false := by simp only [isUnsafeUrlChar]; simp; omega
    have hb : isUnsafeUrlChar (pyLowerChar c) = false := by
      simp only [isUnsafeUrlChar]; simp; omega
    rw [ha, hb]

theorem isAsciiAlphaChar_pyLowerChar (c : Char) :
    isAsciiAlphaChar (pyLowerChar c) = isAsciiAlphaChar c := by
  rcases pyLowerChar_spec c with h | ⟨h1, h2, h3⟩
  · rw [h]
  · have ha : isAsciiAlphaChar c = true := by simp only [isAsciiAlphaChar]; simp; omega
    have hb : isAsciiAlphaChar (pyLowerChar c) = true := by
      simp only [isAsciiAlphaChar]; simp; omega
    rw [ha, hb]

theorem isSchemeChar_pyLowerChar (c : Char) (h : isSchemeChar c = true) :
    isSchemeChar (pyLowerChar c) = true := by
  rcases pyLowerChar_spec c with heq | ⟨h1, h2, h3⟩
  · rw [heq]; exact h
  · simp only [isSchemeChar, isAsciiAlphaChar, isAsciiDigitChar]
    simp
    omega

theorem pyLowerChar_ne_colon (c : Char) (h : c ≠ ':') : pyLowerChar c ≠ ':' := by
  rcases pyLowerChar_spec c with heq | ⟨h1, h2, h3⟩
  · rw [heq]; exact h
  · intro heq
    have h58 : (pyLowerChar c).toNat = 58 := by rw [heq]; rfl
    omega

theorem dropWhile_self_idem {α : Type} (p : α → Bool) (l : List α) :
    (l.dropWhile p).dropWhile p = l.dropWhile p := by
  induction l with
  | nil => rfl
  | cons c t ih =>
    rw [List.dropWhile_cons]
    split
    · exact ih
    · next hpc => rw [List.dropWhile_cons, if_neg hpc]

theorem dropWhile_eq_cons_head {α : Type} (p : α → Bool) (l : List α)
    {c : α} {t : List α} (h : l.dropWhile p = c :: t) : p c = false := by
  induction l with
  | nil => simp at h
  | cons a r ih =>
    rw [List.dropWhile_cons] at h
    split at h
    · exact ih h
    · next hpa =>
      obtain ⟨rfl, -⟩ := List.cons.injEq .. ▸ h
      simpa using hpa

theorem pyLower_nil_iff (l : List Char) : pyLower l = [] ↔ l = [] := by
  simp [pyLower]

theorem stripWww_lower_fix (l : List Char) (hl : pyLower l = l) :
    pyLower (stripWww l) = stripWww l := by
  unfold stripWww
  split
  · rw [show pyLower (l.drop 4) = (pyLower l).drop 4 from (List.map_drop ..).symm ▸ rfl, hl]
  · exact hl

theorem mem_stripWww {c : Char} {l : List Char} (h : c ∈ stripWww l) : c ∈ l := by
  unfold stripWww at h
  split at h
  · exact List.mem_of_mem_drop h
  · exact h

theorem rstripSlash_isPrefixOf (s : List Char) : rstripSlash s <+: s := by
  unfold rstripSlash
  refine List.reverse_suffix.mp ?_
  rw [List.reverse_reverse]
  exact List.dropWhile_suffix _

theorem rstripSlash_idem (s : List Char) :
    rstripSlash (rstripSlash s) = rstripSlash s := by
  unfold rstripSlash
  rw [List.reverse_reverse, dropWhile_self_idem]

theorem mem_rstripSlash {c : Char} {s : List Char} (h : c ∈ rstripSlash s) :
    c ∈ s := (rstripSlash_isPrefixOf s).subset h

theorem take_one_of_isPrefix {l₁ l₂ : List Char} (h : l₁ <+: l₂) (hne : l₁ ≠ []) :
    l₁.take 1 = l₂.take 1 := by
  obtain ⟨t, rfl⟩ := h
  cases l₁ with
  | nil => exact absurd rfl hne
  | cons c r => rfl

theorem headD_of_isPrefix {l₁ l₂ : List Char} (h : l₁ <+: l₂) (hne : l₁ ≠ []) :
    l₁.headD ' ' = l₂.headD ' ' := by
  obtain ⟨t, rfl⟩ := h
  cases l₁ with
  | nil => exact absurd rfl hne
  | cons c r => rfl

/-- Characterisation of `splitScheme`: either nothing was split (the
input is returned with the default scheme), or the input decomposes as
`pre ++ ':' ++ rest` with a valid scheme `pre`. -/
theorem splitScheme_cases (dflt u : List Char) :
    splitScheme dflt u = (dflt, u) ∨
    ∃ pre rest, u = pre ++ ':' :: rest ∧ pre ≠ [] ∧ ':' ∉ pre ∧
      isAsciiAlphaChar (pre.headD ' ') = true ∧ pre.tail.all isSchemeChar = true ∧
      splitScheme dflt u = (pyLower pre, rest) := by
  unfold splitScheme
  by_cases hcond : (u.takeWhile (· ≠ ':')).length < u.length ∧
      u.takeWhile (· ≠ ':') ≠ [] ∧
      isAsciiAlphaChar ((u.takeWhile (· ≠ ':')).headD ' ') = true ∧
      (u.takeWhile (· ≠ ':')).tail.all isSchemeChar = true
  · right
    obtain ⟨hlen, hne, halpha, hall⟩ := hcond
    have hdrop_ne : u.dropWhile (· ≠ ':') ≠ [] := by
      intro hnil
      have hx := List.takeWhile_append_dropWhile (· ≠ ':') u
      rw [hnil, List.append_nil] at hx
      rw [hx] at hlen
      omega
    cases hd : u.dropWhile (· ≠ ':') with
    | nil => exact absurd hd hdrop_ne
    | cons c t =>
      have hc : c = ':' := by
        have := dropWhile_eq_cons_head (· ≠ ':') u hd
        simpa using this
      subst hc
      refine ⟨u.takeWhile (· ≠ ':'), t, ?_, hne, ?_, halpha, hall, ?_⟩
      · conv_lhs => rw [← List.takeWhile_append_dropWhile (· ≠ ':') u, hd]
      · intro hmem
        have := List.mem_takeWhile_imp hmem
        simp at this
      · rw [if_pos ⟨hlen, hne, halpha, hall⟩]
        simp only [Prod.mk.injEq, true_and]
        have harr : u = (u.takeWhile (· ≠ ':') ++ [':']) ++ t := by
          conv_lhs => rw [← List.takeWhile_append_dropWhile (· ≠ ':') u, hd]
          simp
        have key : ∀ a t2 : List Char, u = (a ++ [':']) ++ t2 →
            List.drop (a.length + 1) u = t2 := by
          intro a t2 h2
          rw [h2, show a.length + 1 = (a ++ [':']).length by simp]
          exact List.drop_left ..
        exact key _ t harr
  · left
    rw [if_neg hcond]

theorem char_toNat_inj {a b : Char} (h : a.toNat = b.toNat) : a = b :=
  Char.eq_of_val_eq (UInt32.ext h)

theorem mem_cleanUrl_unsafe {c : Char} {u : List Char} (h : c ∈ cleanUrl u) :
    isUnsafeUrlChar c = false := by
  unfold cleanUrl at h
  have := (List.mem_filter.mp h).2
  simpa using this

theorem cleanUrl_head_not_c0 (u : List Char) (h : cleanUrl u ≠ []) :
    isC0OrSpace ((cleanUrl u).headD ' ') = false := by
  unfold cleanUrl at h ⊢
  cases hd : u.dropWhile isC0OrSpace with
  | nil => rw [hd] at h; exact absurd rfl h
  | cons c t =>
    have hc : isC0OrSpace c = false := dropWhile_eq_cons_head _ _ hd
    have hcu : isUnsafeUrlChar c = false := by
      simp only [isUnsafeUrlChar]
      simp only [isC0OrSpace] at hc
      simp at hc ⊢
      omega
    simp [List.filter_cons, hcu, hc]

theorem cleanUrl_eq_self (u : List Char)
    (hu : ∀ c ∈ u, isUnsafeUrlChar c = false)
    (hh : u = [] ∨ isC0OrSpace (u.headD ' ') = false) :
    cleanUrl u = u := by
  unfold cleanUrl
  rcases hh with rfl | hh
  · rfl
  · cases u with
    | nil => rfl
    | cons c t =>
      rw [List.dropWhile_cons, if_neg (by simpa using hh)]
      exact List.filter_eq_self.mpr fun a ha => by simp [hu a ha]

theorem splitScheme_snd_sub (dflt u : List Char) :
    ∀ c ∈ (splitScheme dflt u).2, c ∈ u := by
  rcases splitScheme_cases dflt u with hc | ⟨pre, rest, heq, _, _, _, _, heq2⟩
  · rw [hc]; exact fun c hc => hc
  · rw [heq2]
    intro c hc
    rw [heq]
    exact List.mem_append.mpr (Or.inr (List.mem_cons_of_mem _ hc))

theorem splitScheme_valid (dflt s rest : List Char) (h0 : s ≠ [])
    (h1 : isAsciiAlphaChar (s.headD ' ') = true)
    (h2 : s.tail.all isSchemeChar = true) :
    splitScheme dflt (s ++ ':' :: rest) = (pyLower s, rest) := by
  have hcolon : ':' ∉ s := by
    intro hmem
    cases s with
    | nil => exact h0 rfl
    | cons c t =>
      rcases List.mem_cons.mp hmem with rfl | hmem'
      · simp [isAsciiAlphaChar] at h1
      · have := (List.all_eq_true.mp h2) ':' hmem'
        simp [isSchemeChar, isAsciiAlphaChar, isAsciiDigitChar] at this
  unfold splitScheme
  rw [takeWhile_sep_append ':' s rest hcolon]
  rw [if_pos ⟨by simp, h0, h1, h2⟩]
  simp only [Prod.mk.injEq, true_and]
  rw [show s.length + 1 = (s ++ [':']).length by simp,
    show s ++ ':' :: rest = (s ++ [':']) ++ rest by simp]
  exact List.drop_left ..

theorem splitScheme_not_alpha (dflt u : List Char)
    (h : isAsciiAlphaChar (u.headD ' ') = false) :
    splitScheme dflt u = (dflt, u) := by
  rcases splitScheme_cases dflt u with hc | ⟨pre, rest, heq, hne, _, halpha, _, _⟩
  · exact hc
  · have hpre : pre.headD ' ' = u.headD ' ' :=
      headD_of_isPrefix ⟨':' :: rest, heq.symm⟩ hne
    rw [hpre, h] at halpha
    cases halpha

theorem splitScheme_of_isPrefix (p u : List Char) (hp : p <+: u)
    (hu : splitScheme [] u = ([], u)) :
    splitScheme [] p = ([], p) := by
  rcases splitScheme_cases [] p with hc | ⟨pre, rest, heq, hne, _, halpha, hall, _⟩
  · exact hc
  · exfalso
    obtain ⟨t, rfl⟩ := hp
    have heqU : p ++ t = pre ++ ':' :: (rest ++ t) := by
      rw [heq]; simp
    have := splitScheme_valid [] pre (rest ++ t) hne halpha hall
    rw [← heqU] at this
    rw [this] at hu
    have : pre = [] := by
      have h1 := congrArg Prod.fst hu
      simpa [pyLower] using h1
    exact hne this

/-! ### Canonical components of `canonicalise` and validity predicates -/

/-- The scheme component produced by `canonicalise` (lowercased). -/
def canonScheme (u : List Char) : List Char :=
  pyLower (pyUrlparse [] u).scheme

/-- The host component produced by `canonicalise` (lowercased,
leading `www.` stripped). -/
def canonHost (u : List Char) : List Char :=
  stripWww (pyLower (pyUrlparse [] u).netloc)

/-- The path component produced by `canonicalise` (trailing slashes
stripped, defaulting to `/`). -/
def canonPath (u : List Char) : List Char :=
  if rstripSlash (pyUrlparse [] u).path = [] then ['/']
  else rstripSlash (pyUrlparse [] u).path

/-- A non-empty scheme accepted by `splitScheme`. -/
def schemeOk (s : List Char) : Prop :=
  s ≠ [] ∧ isAsciiAlphaChar (s.headD ' ') = true ∧ s.tail.all isSchemeChar = true

/-- A non-empty netloc free of delimiters and removed bytes. -/
def hostOk (h : List Char) : Prop :=
  h ≠ [] ∧ ∀ c ∈ h, isNetlocStop c = false ∧ isUnsafeUrlChar c = false

/-- An absolute path free of `#`, `?`, `;` and removed bytes. -/
def pathOk (p : List Char) : Prop :=
  p.take 1 = ['/'] ∧ ∀ c ∈ p, c ≠ '#' ∧ c ≠ '?' ∧ c ≠ ';' ∧ isUnsafeUrlChar c = false

/-- A query free of `#` and removed bytes. -/
def queryOk (q : List Char) : Prop :=
  ∀ c ∈ q, c ≠ '#' ∧ isUnsafeUrlChar c = false

instance decSchemeOk (s : List Char) : Decidable (schemeOk s) := by
  unfold schemeOk
  infer_instance

instance decHostOk (h : List Char) : Decidable (hostOk h) := by
  unfold hostOk
  infer_instance

instance decPathOk (p : List Char) : Decidable (pathOk p) := by
  unfold pathOk
  infer_instance

instance decQueryOk (q : List Char) : Decidable (queryOk q) := by
  unfold queryOk
  infer_instance

theorem canonicalise_eq (u : List Char) :
    canonicalise u
      = pyUrlunsplit (canonScheme u) (canonHost u) (canonPath u) [] [] := by
  simp only [canonicalise, pyUrlunparse, canonScheme, canonHost, canonPath]
  simp

theorem canonScheme_eq (u : List Char) :
    canonScheme u = pyLower (pyUrlsplit [] u).scheme := by
  simp only [canonScheme, pyUrlparse]
  split <;> rfl

theorem canonHost_eq (u : List Char) :
    canonHost u = stripWww (pyLower (pyUrlsplit [] u).netloc) := by
  simp only [canonHost, pyUrlparse]
  split <;> rfl

theorem canonPath_eq (u : List Char) (H2 : ';' ∉ (pyUrlsplit [] u).path) :
    canonPath u
      = if rstripSlash (pyUrlsplit [] u).path = [] then ['/']
        else rstripSlash (pyUrlsplit [] u).path := by
  simp only [canonPath, pyUrlparse]
  rw [if_neg H2]

theorem canonPath_ne (u : List Char) : canonPath u ≠ [] := by
  unfold canonPath
  split
  · simp
  · next h => exact h

theorem headD_of_take_one {l : List Char} {c : Char} (h : l.take 1 = [c]) :
    l.headD ' ' = c := by
  cases l with
  | nil => simp at h
  | cons a t => simp_all [List.take]

theorem alpha_not_c0 (c : Char) (h : isAsciiAlphaChar c = true) :
    isC0OrSpace c = false := by
  simp only [isAsciiAlphaChar] at h
  simp only [isC0OrSpace]
  simp at h ⊢
  omega

theorem alpha_isSchemeChar (c : Char) (h : isAsciiAlphaChar c = true) :
    isSchemeChar c = true := by
  simp [isSchemeChar, h]

theorem isSchemeChar_not_unsafe (c : Char) (h : isSchemeChar c = true) :
    isUnsafeUrlChar c = false := by
  simp only [isSchemeChar, isAsciiAlphaChar, isAsciiDigitChar] at h
  simp only [isUnsafeUrlChar]
  simp at h ⊢
  rcases h with h | h | h | h | h
  · omega
  · omega
  · refine ⟨?_, ?_, ?_⟩ <;> (rw [h]; decide)
  · refine ⟨?_, ?_, ?_⟩ <;> (rw [h]; decide)
  · refine ⟨?_, ?_, ?_⟩ <;> (rw [h]; decide)

theorem schemeOk_mem (s : List Char) (hs : schemeOk s) :
    ∀ c ∈ s, isSchemeChar c = true := by
  obtain ⟨hne, halpha, hall⟩ := hs
  intro c hc
  cases s with
  | nil => exact absurd rfl hne
  | cons a t =>
    rcases List.mem_cons.mp hc with rfl | hct
    · exact alpha_isSchemeChar c halpha
    · exact List.all_eq_true.mp hall c hct

theorem schemeOk_pyLower_parts (pre : List Char) (hne : pre ≠ [])
    (halpha : isAsciiAlphaChar (pre.headD ' ') = true)
    (hall : pre.tail.all isSchemeChar = true) : schemeOk (pyLower pre) := by
  cases pre with
  | nil => exact absurd rfl hne
  | cons c t =>
    refine ⟨by simp [pyLower], ?_, ?_⟩
    · show isAsciiAlphaChar ((pyLower (c :: t)).headD ' ') = true
      simp only [pyLower, List.map_cons, List.headD_cons]
      rw [isAsciiAlphaChar_pyLowerChar]
      exact halpha
    · show ((pyLower (c :: t)).tail).all isSchemeChar = true
      simp only [pyLower, List.map_cons, List.tail_cons]
      rw [List.all_eq_true] at hall ⊢
      intro x hx
      obtain ⟨x0, hx0, rfl⟩ := List.mem_map.mp hx
      exact isSchemeChar_pyLowerChar x0 (hall x0 hx0)

theorem pyLower_append (a b : List Char) :
    pyLower (a ++ b) = pyLower a ++ pyLower b := List.map_append ..

theorem stripWww_www (x : List Char) : stripWww ("www.".data ++ x) = x := by
  unfold stripWww
  rw [if_pos, show (4 : Nat) = ("www.".data).length from rfl, List.drop_left]
  rw [show (4 : Nat) = ("www.".data).length from rfl, List.take_left]

theorem rstripSlash_append_slash (p : List Char) :
    rstripSlash (p ++ ['/']) = rstripSlash p := by
  unfold rstripSlash
  rw [List.reverse_append]
  simp [List.dropWhile_cons]

theorem canonScheme_lower_fix (u : List Char) :
    pyLower (canonScheme u) = canonScheme u := pyLower_idem _

theorem canonHost_lower_fix (u : List Char) :
    pyLower (canonHost u) = canonHost u :=
  stripWww_lower_fix _ (pyLower_idem _)

theorem canonHost_www_fix (u : List Char)
    (H1 : (canonHost u).take 4 ≠ "www.".data) :
    stripWww (canonHost u) = canonHost u := by
  unfold stripWww
  rw [if_neg H1]

theorem canonPath_rstrip_fix (u : List Char) :
    (if rstripSlash (canonPath u) = [] then ['/']
      else rstripSlash (canonPath u)) = canonPath u := by
  unfold canonPath
  by_cases h : rstripSlash (pyUrlparse [] u).path = []
  · rw [if_pos h]
    decide
  · rw [if_neg h, rstripSlash_idem, if_neg h]

/-! ### Facts about the components of `pyUrlsplit` -/

theorem urlsplit_scheme_facts (u : List Char) :
    ((pyUrlsplit [] u).scheme = []
        ∧ splitScheme [] (cleanUrl u) = ([], cleanUrl u))
    ∨ (schemeOk (pyUrlsplit [] u).scheme
        ∧ pyLower (pyUrlsplit [] u).scheme = (pyUrlsplit [] u).scheme) := by
  have hsx : (pyUrlsplit [] u).scheme = (splitScheme [] (cleanUrl u)).1 := rfl
  rcases splitScheme_cases [] (cleanUrl u) with hc |
      ⟨pre, rest, heq, hne, hcol, halpha, hall, heq2⟩
  · left
    rw [hsx, hc]
    exact ⟨rfl, rfl⟩
  · right
    rw [hsx, heq2]
    exact ⟨schemeOk_pyLower_parts pre hne halpha hall, pyLower_idem pre⟩

theorem urlsplit_netloc_facts (u : List Char) :
    ∀ c ∈ (pyUrlsplit [] u).netloc,
      isNetlocStop c = false ∧ isUnsafeUrlChar c = false := by
  intro c hc
  have hnx : (pyUrlsplit [] u).netloc
      = (if (splitScheme [] (cleanUrl u)).2.take 2 = ['/', '/']
          then splitNetlocFrom (splitScheme [] (cleanUrl u)).2
          else ([], (splitScheme [] (cleanUrl u)).2)).1 := rfl
  rw [hnx] at hc
  split at hc
  · unfold splitNetlocFrom at hc
    have h1 := List.mem_takeWhile_imp hc
    have h2 : c ∈ cleanUrl u :=
      splitScheme_snd_sub [] (cleanUrl u) c
        (List.drop_subset _ _ ((List.takeWhile_sublist _).subset hc))
    refine ⟨by simpa using h1, mem_cleanUrl_unsafe h2⟩
  · simp at hc

theorem urlsplit_path_expand (u : List Char) :
    (pyUrlsplit [] u).path
      = ((if (splitScheme [] (cleanUrl u)).2.take 2 = ['/', '/']
          then splitNetlocFrom (splitScheme [] (cleanUrl u)).2
          else ([], (splitScheme [] (cleanUrl u)).2)).2.takeWhile
            (· ≠ '#')).takeWhile (· ≠ '?') := rfl

theorem urlsplit_path_facts (u : List Char) :
    ∀ c ∈ (pyUrlsplit [] u).path,
      c ≠ '#' ∧ c ≠ '?' ∧ isUnsafeUrlChar c = false := by
  intro c hc
  rw [urlsplit_path_expand] at hc
  have h1 : c ≠ '?' := by
    have := List.mem_takeWhile_imp hc
    simpa using this
  have hc2 := (List.takeWhile_sublist _).subset hc
  have h2 : c ≠ '#' := by
    have := List.mem_takeWhile_imp hc2
    simpa using this
  have hc3 := (List.takeWhile_sublist (· ≠ '#')).subset hc2
  have h3 : c ∈ cleanUrl u := by
    revert hc3
    split
    · intro hc3
      unfold splitNetlocFrom at hc3
      exact splitScheme_snd_sub [] (cleanUrl u) c
        (List.drop_subset _ _ ((List.dropWhile_sublist _).subset hc3))
    · intro hc3
      exact splitScheme_snd_sub [] (cleanUrl u) c hc3
  exact ⟨h2, h1, mem_cleanUrl_unsafe h3⟩

theorem urlsplit_netloc_of_ne (u : List Char)
    (hn : (pyUrlsplit [] u).netloc ≠ []) :
    (splitScheme [] (cleanUrl u)).2.take 2 = ['/', '/'] := by
  by_contra hb
  apply hn
  show (if (splitScheme [] (cleanUrl u)).2.take 2 = ['/', '/']
      then splitNetlocFrom (splitScheme [] (cleanUrl u)).2
      else ([], (splitScheme [] (cleanUrl u)).2)).1 = []
  rw [if_neg hb]

theorem urlsplit_path_shape_of_slash (u : List Char)
    (hb : (splitScheme [] (cleanUrl u)).2.take 2 = ['/', '/']) :
    (pyUrlsplit [] u).path = [] ∨ (pyUrlsplit [] u).path.headD ' ' = '/' := by
  have hpx : (pyUrlsplit [] u).path
      = (((splitNetlocFrom (splitScheme [] (cleanUrl u)).2).2.takeWhile
          (· ≠ '#')).takeWhile (· ≠ '?')) := by
    rw [urlsplit_path_expand, if_pos hb]
  cases hrc : (splitNetlocFrom (splitScheme [] (cleanUrl u)).2).2 with
  | nil =>
    left
    rw [hpx, hrc]
    rfl
  | cons c t =>
    have hstop : isNetlocStop c = true := by
      have hd : ((splitScheme [] (cleanUrl u)).2.drop 2).dropWhile
          (fun c => ! isNetlocStop c) = c :: t := hrc
      have := dropWhile_eq_cons_head (fun c => ! isNetlocStop c) _ hd
      simpa using this
    have hcn : c.toNat = 47 ∨ c.toNat = 63 ∨ c.toNat = 35 := by
      simpa [isNetlocStop] using hstop
    rcases hcn with hcn | hcn | hcn
    · have hc : c = '/' := char_toNat_inj (show c.toNat = '/'.toNat from hcn)
      subst hc
      right
      rw [hpx, hrc]
      simp [List.takeWhile_cons]
    · have hc : c = '?' := char_toNat_inj (show c.toNat = '?'.toNat from hcn)
      subst hc
      left
      rw [hpx, hrc]
      simp [List.takeWhile_cons]
    · have hc : c = '#' := char_toNat_inj (show c.toNat = '#'.toNat from hcn)
      subst hc
      left
      rw [hpx, hrc]
      simp [List.takeWhile_cons]

theorem urlsplit_path_isPrefixOf (u : List Char)
    (hb : (splitScheme [] (cleanUrl u)).2.take 2 ≠ ['/', '/']) :
    (pyUrlsplit [] u).path <+: (splitScheme [] (cleanUrl u)).2 := by
  rw [urlsplit_path_expand, if_neg hb]
  exact (List.takeWhile_prefix _).trans (List.takeWhile_prefix _)

/-! ### Round trips through `pyUrlunsplit` and `pyUrlsplit` -/

theorem pyUrlunsplit_netloc_form (s h p q : List Char)
    (cond : h ≠ [] ∨ (s ≠ [] ∧ s ∈ usesNetloc ∧ p.take 2 ≠ ['/', '/']))
    (hp1 : p.take 1 = ['/']) :
    pyUrlunsplit s h p q [] =
      (if s = [] then [] else s ++ [':'])
        ++ '/' :: '/' :: (h ++ p ++ (if q = [] then [] else '?' :: q)) := by
  have hins : ¬ (p ≠ [] ∧ p.take 1 ≠ ['/']) := by
    rintro ⟨h1, h2⟩
    exact h2 hp1
  simp only [pyUrlunsplit]
  rw [if_pos cond, if_neg hins]
  by_cases hs0 : s = [] <;> by_cases hq0 : q = [] <;>
    simp [hs0, hq0, List.append_assoc]

theorem pyUrlunsplit_plain_form (s p : List Char)
    (hcond : s = [] ∨ s ∉ usesNetloc ∨ p.take 2 = ['/', '/']) :
    pyUrlunsplit s [] p [] [] = (if s = [] then [] else s ++ [':']) ++ p := by
  have hc : ¬ (([] : List Char) ≠ []
      ∨ (s ≠ [] ∧ s ∈ usesNetloc ∧ p.take 2 ≠ ['/', '/'])) := by
    rintro (h | ⟨h1, h2, h3⟩)
    · exact h rfl
    · rcases hcond with h4 | h4 | h4
      · exact h1 h4
      · exact h4 h2
      · exact h3 h4
  simp only [pyUrlunsplit]
  rw [if_neg hc]
  by_cases hs0 : s = [] <;> simp [hs0]

theorem pyUrlsplit_built (s h p q : List Char)
    (hs : s = [] ∨ schemeOk s)
    (hh : ∀ c ∈ h, isNetlocStop c = false ∧ isUnsafeUrlChar c = false)
    (hp1 : p.take 1 = ['/'])
    (hp : ∀ c ∈ p, c ≠ '#' ∧ c ≠ '?' ∧ isUnsafeUrlChar c = false)
    (hq : ∀ c ∈ q, c ≠ '#' ∧ isUnsafeUrlChar c = false) :
    pyUrlsplit [] ((if s = [] then [] else s ++ [':'])
        ++ '/' :: '/' :: (h ++ p ++ (if q = [] then [] else '?' :: q)))
      = ⟨pyLower s, h, p, q, []⟩ := by
  have hqpart : ∀ c ∈ (if q = [] then [] else '?' :: q),
      c ≠ '#' ∧ isUnsafeUrlChar c = false := by
    intro c hc
    by_cases hq0 : q = []
    · rw [if_pos hq0] at hc
      simp at hc
    · rw [if_neg hq0] at hc
      rcases List.mem_cons.mp hc with rfl | hc
      · exact ⟨by decide, by decide⟩
      · exact hq c hc
  have hmem_all : ∀ c ∈ (if s = [] then [] else s ++ [':'])
      ++ '/' :: '/' :: (h ++ p ++ (if q = [] then [] else '?' :: q)),
      isUnsafeUrlChar c = false := by
    intro c hc
    rcases List.mem_append.mp hc with hc | hc
    · rcases hs with hs0 | hsok
      · rw [if_pos hs0] at hc
        simp at hc
      · rw [if_neg hsok.1] at hc
        rcases List.mem_append.mp hc with hc | hc
        · exact isSchemeChar_not_unsafe c (schemeOk_mem s hsok c hc)
        · simp at hc
          subst hc
          decide
    · rcases List.mem_cons.mp hc with rfl | hc
      · decide
      · rcases List.mem_cons.mp hc with rfl | hc
        · decide
        · rcases List.mem_append.mp hc with hc | hc
          · rcases List.mem_append.mp hc with hc | hc
            · exact (hh c hc).2
            · exact (hp c hc).2.2
          · exact (hqpart c hc).2
  have hclean : cleanUrl ((if s = [] then [] else s ++ [':'])
      ++ '/' :: '/' :: (h ++ p ++ (if q = [] then [] else '?' :: q)))
      = (if s = [] then [] else s ++ [':'])
        ++ '/' :: '/' :: (h ++ p ++ (if q = [] then [] else '?' :: q)) := by
    apply cleanUrl_eq_self _ hmem_all
    right
    rcases hs with hs0 | hsok
    · rw [if_pos hs0]
      simp only [List.nil_append, List.headD_cons]
      decide
    · rw [if_neg hsok.1]
      cases s with
      | nil => exact absurd rfl hsok.1
      | cons c0 t0 =>
        simp only [List.cons_append, List.headD_cons]
        exact alpha_not_c0 c0 (by simpa using hsok.2.1)
  have hscheme : splitScheme [] ((if s = [] then [] else s ++ [':'])
      ++ '/' :: '/' :: (h ++ p ++ (if q = [] then [] else '?' :: q)))
      = (pyLower s,
        '/' :: '/' :: (h ++ p ++ (if q = [] then [] else '?' :: q))) := by
    rcases hs with hs0 | hsok
    · subst hs0
      rw [if_pos rfl]
      simp only [List.nil_append]
      rw [splitScheme_not_alpha]
      · rfl
      · simp only [List.headD_cons]
        decide
    · rw [if_neg hsok.1]
      have harr : (s ++ [':'])
          ++ '/' :: '/' :: (h ++ p ++ (if q = [] then [] else '?' :: q))
          = s ++ ':'
            :: ('/' :: '/' :: (h ++ p ++ (if q = [] then [] else '?' :: q))) := by
        simp
      rw [harr]
      exact splitScheme_valid [] s _ hsok.1 hsok.2.1 hsok.2.2
  obtain ⟨pt, rfl⟩ : ∃ pt, p = '/' :: pt := by
    cases p with
    | nil => simp at hp1
    | cons a t =>
      have ha : a = '/' := by simpa [List.take] using hp1
      exact ⟨t, by rw [ha]⟩
  have hnet : splitNetlocFrom
      ('/' :: '/' :: (h ++ '/' :: pt ++ (if q = [] then [] else '?' :: q)))
      = (h, '/' :: pt ++ (if q = [] then [] else '?' :: q)) := by
    unfold splitNetlocFrom
    have hdrop : ('/' :: '/'
        :: (h ++ '/' :: pt ++ (if q = [] then [] else '?' :: q))).drop 2
        = h ++ '/' :: pt ++ (if q = [] then [] else '?' :: q) := rfl
    rw [hdrop]
    rw [List.append_assoc]
    have hall : ∀ x ∈ h, (fun c => ! isNetlocStop c) x = true := by
      intro x hx
      simp [(hh x hx).1]
    rw [takeWhile_append_all _ h _ hall, dropWhile_append_all _ h _ hall]
    have ht : List.takeWhile (fun c => ! isNetlocStop c)
        ('/' :: (pt ++ (if q = [] then [] else '?' :: q))) = [] := by
      rw [List.takeWhile_cons, if_neg (by decide)]
    have hd : List.dropWhile (fun c => ! isNetlocStop c)
        ('/' :: (pt ++ (if q = [] then [] else '?' :: q)))
        = '/' :: (pt ++ (if q = [] then [] else '?' :: q)) := by
      rw [List.dropWhile_cons, if_neg (by decide)]
    rw [List.cons_append, ht, hd, List.append_nil]
  have hfrag : splitOnFirst '#'
      ('/' :: pt ++ (if q = [] then [] else '?' :: q))
      = ('/' :: pt ++ (if q = [] then [] else '?' :: q), []) := by
    apply splitOnFirst_not_mem
    intro hm
    rcases List.mem_append.mp hm with hm | hm
    · exact (hp '#' hm).1 rfl
    · exact (hqpart '#' hm).1 rfl
  have hquery : splitOnFirst '?'
      ('/' :: pt ++ (if q = [] then [] else '?' :: q)) = ('/' :: pt, q) := by
    by_cases hq0 : q = []
    · rw [if_pos hq0, List.append_nil, hq0]
      exact splitOnFirst_not_mem _ _ (fun hm => (hp '?' hm).2.1 rfl)
    · rw [if_neg hq0]
      exact splitOnFirst_append '?' _ q (fun hm => (hp '?' hm).2.1 rfl)
  simp only [pyUrlsplit]
  rw [hclean]
  have hs1 : (splitScheme [] ((if s = [] then [] else s ++ [':'])
      ++ '/' :: '/' :: (h ++ '/' :: pt ++ (if q = [] then [] else '?' :: q)))).1
      = pyLower s := by rw [hscheme]
  have hs2 : (splitScheme [] ((if s = [] then [] else s ++ [':'])
      ++ '/' :: '/' :: (h ++ '/' :: pt ++ (if q = [] then [] else '?' :: q)))).2
      = '/' :: '/' :: (h ++ '/' :: pt ++ (if q = [] then [] else '?' :: q)) := by
    rw [hscheme]
  rw [hs1, hs2]
  rw [if_pos (show ('/' :: '/'
      :: (h ++ '/' :: pt ++ (if q = [] then [] else '?' :: q))).take 2
      = ['/', '/'] from rfl)]
  have hn1 : (splitNetlocFrom ('/' :: '/'
      :: (h ++ '/' :: pt ++ (if q = [] then [] else '?' :: q)))).1 = h := by
    rw [hnet]
  have hn2 : (splitNetlocFrom ('/' :: '/'
      :: (h ++ '/' :: pt ++ (if q = [] then [] else '?' :: q)))).2
      = '/' :: pt ++ (if q = [] then [] else '?' :: q) := by rw [hnet]
  rw [hn1, hn2]
  have hf1 : (splitOnFirst '#'
      ('/' :: pt ++ (if q = [] then [] else '?' :: q))).1
      = '/' :: pt ++ (if q = [] then [] else '?' :: q) := by rw [hfrag]
  have hf2 : (splitOnFirst '#'
      ('/' :: pt ++ (if q = [] then [] else '?' :: q))).2 = [] := by rw [hfrag]
  rw [hf1, hf2]
  have hq1 : (splitOnFirst '?'
      ('/' :: pt ++ (if q = [] then [] else '?' :: q))).1 = '/' :: pt := by
    rw [hquery]
  have hq2 : (splitOnFirst '?'
      ('/' :: pt ++ (if q = [] then [] else '?' :: q))).2 = q := by
    rw [hquery]
  rw [hq1, hq2]

theorem pyUrlsplit_plain_scheme (s p : List Char)
    (hsok : schemeOk s) (hp0 : p ≠ [])
    (hp : ∀ c ∈ p, c ≠ '#' ∧ c ≠ '?' ∧ isUnsafeUrlChar c = false)
    (hp2 : p.take 2 ≠ ['/', '/']) :
    pyUrlsplit [] (s ++ ':' :: p) = ⟨pyLower s, [], p, [], []⟩ := by
  have hclean : cleanUrl (s ++ ':' :: p) = s ++ ':' :: p := by
    apply cleanUrl_eq_self
    · intro c hc
      rcases List.mem_append.mp hc with hc | hc
      · exact isSchemeChar_not_unsafe c (schemeOk_mem s hsok c hc)
      · rcases List.mem_cons.mp hc with rfl | hc
        · decide
        · exact (hp c hc).2.2
    · right
      cases s with
      | nil => exact absurd rfl hsok.1
      | cons c0 t0 =>
        simp only [List.cons_append, List.headD_cons]
        exact alpha_not_c0 c0 (by simpa using hsok.2.1)
  have hscheme := splitScheme_valid [] s p hsok.1 hsok.2.1 hsok.2.2
  simp only [pyUrlsplit]
  rw [hclean]
  have hs1 : (splitScheme [] (s ++ ':' :: p)).1 = pyLower s := by rw [hscheme]
  have hs2 : (splitScheme [] (s ++ ':' :: p)).2 = p := by rw [hscheme]
  rw [hs1, hs2, if_neg hp2]
  have hfrag : splitOnFirst '#' p = (p, []) :=
    splitOnFirst_not_mem _ _ (fun hm => (hp '#' hm).1 rfl)
  have hquery : splitOnFirst '?' p = (p, []) :=
    splitOnFirst_not_mem _ _ (fun hm => (hp '?' hm).2.1 rfl)
  have hf1 : (splitOnFirst '#' p).1 = p := by rw [hfrag]
  have hf2 : (splitOnFirst '#' p).2 = [] := by rw [hfrag]
  have hq1 : (splitOnFirst '?' p).1 = p := by rw [hquery]
  have hq2 : (splitOnFirst '?' p).2 = [] := by rw [hquery]
  show (⟨pyLower s, ([], p).1,
    (splitOnFirst '?' (splitOnFirst '#' ([], p).2).1).1,
    (splitOnFirst '?' (splitOnFirst '#' ([], p).2).1).2,
    (splitOnFirst '#' ([], p).2).2⟩ : SplitUrl) = ⟨pyLower s, [], p, [], []⟩
  rw [show (([], p) : List Char × List Char).2 = p from rfl, hf1, hf2, hq1, hq2]

theorem pyUrlsplit_plain_noscheme (p : List Char)
    (hsch : splitScheme [] p = ([], p))
    (hp0 : p ≠ []) (hc0 : isC0OrSpace (p.headD ' ') = false)
    (hp : ∀ c ∈ p, c ≠ '#' ∧ c ≠ '?' ∧ isUnsafeUrlChar c = false)
    (hp2 : p.take 2 ≠ ['/', '/']) :
    pyUrlsplit [] p = ⟨[], [], p, [], []⟩ := by
  have hclean : cleanUrl p = p :=
    cleanUrl_eq_self p (fun c hc => (hp c hc).2.2) (Or.inr hc0)
  simp only [pyUrlsplit]
  rw [hclean]
  have hs1 : (splitScheme [] p).1 = [] := by rw [hsch]
  have hs2 : (splitScheme [] p).2 = p := by rw [hsch]
  rw [hs1, hs2, if_neg hp2]
  have hfrag : splitOnFirst '#' p = (p, []) :=
    splitOnFirst_not_mem _ _ (fun hm => (hp '#' hm).1 rfl)
  have hquery : splitOnFirst '?' p = (p, []) :=
    splitOnFirst_not_mem _ _ (fun hm => (hp '?' hm).2.1 rfl)
  have hf1 : (splitOnFirst '#' p).1 = p := by rw [hfrag]
  have hf2 : (splitOnFirst '#' p).2 = [] := by rw [hfrag]
  have hq1 : (splitOnFirst '?' p).1 = p := by rw [hquery]
  have hq2 : (splitOnFirst '?' p).2 = [] := by rw [hquery]
  show (⟨[], ([], p).1,
    (splitOnFirst '?' (splitOnFirst '#' ([], p).2).1).1,
    (splitOnFirst '?' (splitOnFirst '#' ([], p).2).1).2,
    (splitOnFirst '#' ([], p).2).2⟩ : SplitUrl) = ⟨[], [], p, [], []⟩
  rw [show (([], p) : List Char × List Char).2 = p from rfl, hf1, hf2, hq1, hq2]

theorem canonicalise_of_split (v : List Char) (S : SplitUrl)
    (hv : pyUrlsplit [] v = S) (hsemi : ';' ∉ S.path) :
    canonicalise v
      = pyUrlunsplit (pyLower S.scheme) (stripWww (pyLower S.netloc))
        (if rstripSlash S.path = [] then ['/'] else rstripSlash S.path)
        [] [] := by
  simp only [canonicalise, pyUrlparse, pyUrlunparse]
  rw [hv, if_neg hsemi]
  simp

theorem canonicalise_built (s h p q : List Char)
    (hs : s = [] ∨ schemeOk s) (hh : hostOk h)
    (hp : pathOk p) (hq : queryOk q) :
    canonicalise (pyUrlunsplit s h p q []) =
      pyUrlunsplit (pyLower s) (stripWww (pyLower h))
        (if rstripSlash p = [] then ['/'] else rstripSlash p) [] [] := by
  have hform := pyUrlunsplit_netloc_form s h p q (Or.inl hh.1) hp.1
  have hsplit := pyUrlsplit_built s h p q hs hh.2 hp.1
      (fun c hc => ⟨(hp.2 c hc).1, (hp.2 c hc).2.1, (hp.2 c hc).2.2.2⟩) hq
  have hv : pyUrlsplit [] (pyUrlunsplit s h p q [])
      = ⟨pyLower s, h, p, q, []⟩ := by
    rw [hform]
    exact hsplit
  have hfin := canonicalise_of_split _ _ hv (by
    intro hm
    exact (hp.2 ';' hm).2.2.1 rfl)
  dsimp only at hfin
  rw [hfin, pyLower_idem]

set_option maxHeartbeats 2000000 in
/-- **C3.** Corrected idempotence and identification property of
`canonicalise` (src/http.py lines 51-55). Idempotence
`canonicalise (canonicalise u) = canonicalise u` holds whenever the
canonical host does not itself start with `www.` (H1), the parsed path
carries no `;` parameter segment (H2), an empty canonical host does not
sit before a path starting with `//` (H3), and a netloc-using scheme
with empty host has an absolute canonical path (H4); the
`C3_counterexample` shows H1 is necessary. Moreover `canonicalise`
identifies URLs differing only in a trailing slash, a leading `www.`
on the host, scheme case, or the presence of a query. -/
theorem C3_canonicalise
    (u : List Char)
    (H1 : (canonHost u).take 4 ≠ "www.".data)
    (H2 : ';' ∉ (pyUrlsplit [] u).path)
    (H3 : ¬ (canonHost u = [] ∧ (canonPath u).take 2 = ['/', '/']))
    (H4 : canonHost u = [] → canonScheme u ≠ [] → canonScheme u ∈ usesNetloc →
      (canonPath u).take 1 = ['/'])
    (s s2 h p q : List Char)
    (hs : schemeOk s) (hs2 : schemeOk s2) (hlow : pyLower s2 = pyLower s)
    (hh : hostOk h) (hw : (pyLower h).take 4 ≠ "www.".data)
    (hp : pathOk p) (hq : queryOk q) :
    canonicalise (canonicalise u) = canonicalise u
    ∧ canonicalise (pyUrlunsplit s h (p ++ ['/']) q [])
        = canonicalise (pyUrlunsplit s h p q [])
    ∧ canonicalise (pyUrlunsplit s ("www.".data ++ h) p q [])
        = canonicalise (pyUrlunsplit s h p q [])
    ∧ canonicalise (pyUrlunsplit s2 h p q [])
        = canonicalise (pyUrlunsplit s h p q [])
    ∧ canonicalise (pyUrlunsplit s h p q [])
        = canonicalise (pyUrlunsplit s h p [] []) := by
  have hsemiP : ∀ c ∈ canonPath u,
      c ≠ '#' ∧ c ≠ '?' ∧ c ≠ ';' ∧ isUnsafeUrlChar c = false := by
    intro c hc
    rw [canonPath_eq u H2] at hc
    revert hc
    split
    · intro hc
      simp at hc
      subst hc
      exact ⟨by decide, by decide, by decide, by decide⟩
    · intro hc
      have hcm : c ∈ (pyUrlsplit [] u).path := mem_rstripSlash hc
      obtain ⟨e1, e2, e3⟩ := urlsplit_path_facts u c hcm
      exact ⟨e1, e2, fun he => H2 (he ▸ hcm), e3⟩
  have hp'ne : canonPath u ≠ [] := canonPath_ne u
  have hs'fact : canonScheme u = [] ∨ schemeOk (canonScheme u) := by
    rcases urlsplit_scheme_facts u with ⟨h1, _⟩ | ⟨h1, h2⟩
    · left
      rw [canonScheme_eq u, h1]
      rfl
    · right
      rw [canonScheme_eq u, h2]
      exact h1
  have hh'mem : ∀ c ∈ canonHost u,
      isNetlocStop c = false ∧ isUnsafeUrlChar c = false := by
    intro c hc
    rw [canonHost_eq u] at hc
    have hc1 : c ∈ pyLower (pyUrlsplit [] u).netloc := mem_stripWww hc
    rw [show pyLower (pyUrlsplit [] u).netloc
        = ((pyUrlsplit [] u).netloc).map pyLowerChar from rfl] at hc1
    obtain ⟨c0, hc0, rfl⟩ := List.mem_map.mp hc1
    rw [isNetlocStop_pyLowerChar, isUnsafeUrlChar_pyLowerChar]
    exact urlsplit_netloc_facts u c0 hc0
  have hslash_take1 : (splitScheme [] (cleanUrl u)).2.take 2 = ['/', '/'] →
      (canonPath u).take 1 = ['/'] := by
    intro hb
    rcases urlsplit_path_shape_of_slash u hb with h0 | h0
    · rw [canonPath_eq u H2, h0]
      decide
    · rw [canonPath_eq u H2]
      cases hpc : (pyUrlsplit [] u).path with
      | nil =>
        rw [hpc] at h0
        exact absurd h0 (by decide)
      | cons c t =>
        rw [hpc] at h0
        simp only [List.headD_cons] at h0
        subst h0
        by_cases hrs : rstripSlash ('/' :: t) = []
        · rw [if_pos hrs]
          decide
        · rw [if_neg hrs]
          rw [take_one_of_isPrefix (rstripSlash_isPrefixOf ('/' :: t)) hrs]
          rfl
  have hpmem' : ∀ c ∈ canonPath u,
      c ≠ '#' ∧ c ≠ '?' ∧ isUnsafeUrlChar c = false :=
    fun c hc => ⟨(hsemiP c hc).1, (hsemiP c hc).2.1, (hsemiP c hc).2.2.2⟩
  have hpslash : pathOk (p ++ ['/']) := by
    obtain ⟨hp1, hpm⟩ := hp
    constructor
    · cases p with
      | nil => simp at hp1
      | cons a t => simpa using hp1
    · intro c hc
      rcases List.mem_append.mp hc with hc | hc
      · exact hpm c hc
      · simp at hc
        subst hc
        exact ⟨by decide, by decide, by decide, by decide⟩
  have hhwww : hostOk ("www.".data ++ h) := by
    obtain ⟨hh1, hhm⟩ := hh
    refine ⟨by simp, ?_⟩
    intro c hc
    rcases List.mem_append.mp hc with hc | hc
    · have hwww : ∀ c ∈ "www.".data,
          isNetlocStop c = false ∧ isUnsafeUrlChar c = false := by decide
      exact hwww c hc
    · exact hhm c hc
  have hqnil : queryOk ([] : List Char) :=
    fun c hc => absurd hc (List.not_mem_nil c)
  have hb1 := canonicalise_built s h p q (Or.inr hs) hh hp hq
  have hb2 := canonicalise_built s h (p ++ ['/']) q (Or.inr hs) hh hpslash hq
  have hb3 := canonicalise_built s ("www.".data ++ h) p q (Or.inr hs) hhwww hp hq
  have hb4 := canonicalise_built s2 h p q (Or.inr hs2) hh hp hq
  have hb5 := canonicalise_built s h p [] (Or.inr hs) hh hp hqnil
  refine ⟨?_, ?_, ?_, ?_, ?_⟩
  · suffices hv : pyUrlsplit [] (canonicalise u)
        = ⟨canonScheme u, canonHost u, canonPath u, [], []⟩ by
      have hfin := canonicalise_of_split (canonicalise u) _ hv
        (fun hm => (hsemiP ';' hm).2.2.1 rfl)
      dsimp only at hfin
      rw [hfin, canonScheme_lower_fix, canonHost_lower_fix,
        canonHost_www_fix u H1, canonPath_rstrip_fix, ← canonicalise_eq]
    by_cases hh0 : canonHost u = []
    · by_cases hs0 : canonScheme u = []
      · -- no scheme, no host: the canonical URL is just the path
        have hform : pyUrlunsplit (canonScheme u) (canonHost u) (canonPath u)
            [] [] = canonPath u := by
          rw [hs0, hh0, pyUrlunsplit_plain_form [] (canonPath u) (Or.inl rfl)]
          simp
        have hp2 : (canonPath u).take 2 ≠ ['/', '/'] := fun hx => H3 ⟨hh0, hx⟩
        have hsch : splitScheme [] (canonPath u) = ([], canonPath u)
            ∧ isC0OrSpace ((canonPath u).headD ' ') = false := by
          by_cases hb : (splitScheme [] (cleanUrl u)).2.take 2 = ['/', '/']
          · have h1 := hslash_take1 hb
            have hhd := headD_of_take_one h1
            exact ⟨splitScheme_not_alpha [] _ (by rw [hhd]; decide),
              by rw [hhd]; decide⟩
          · have hpre0 := urlsplit_path_isPrefixOf u hb
            rcases urlsplit_scheme_facts u with ⟨h1, hsp⟩ | ⟨h1, h2⟩
            · have hsu2 : (splitScheme [] (cleanUrl u)).2 = cleanUrl u := by
                rw [hsp]
              rw [hsu2] at hpre0
              by_cases hrs : rstripSlash (pyUrlsplit [] u).path = []
              · have hcp : canonPath u = ['/'] := by
                  rw [canonPath_eq u H2, if_pos hrs]
                exact ⟨by rw [hcp]; decide, by rw [hcp]; decide⟩
              · have hcp : canonPath u = rstripSlash (pyUrlsplit [] u).path := by
                  rw [canonPath_eq u H2, if_neg hrs]
                have hpre : canonPath u <+: cleanUrl u := by
                  rw [hcp]
                  exact (rstripSlash_isPrefixOf _).trans hpre0
                have hcune : cleanUrl u ≠ [] := by
                  intro h0
                  rw [h0] at hpre
                  exact hp'ne (List.prefix_nil.mp hpre)
                refine ⟨splitScheme_of_isPrefix _ _ hpre hsp, ?_⟩
                rw [headD_of_isPrefix hpre hp'ne]
                exact cleanUrl_head_not_c0 u hcune
            · exfalso
              rw [canonScheme_eq u] at hs0
              exact h1.1 ((pyLower_nil_iff _).mp hs0)
        have hsplit := pyUrlsplit_plain_noscheme (canonPath u) hsch.1 hp'ne
          hsch.2 hpmem' hp2
        rw [canonicalise_eq u, hform, hsplit, hs0, hh0]
      · have hsok : schemeOk (canonScheme u) := by
          rcases hs'fact with h0 | h0
          · exact absurd h0 hs0
          · exact h0
        have hp2 : (canonPath u).take 2 ≠ ['/', '/'] := fun hx => H3 ⟨hh0, hx⟩
        by_cases hmem : canonScheme u ∈ usesNetloc
        · -- scheme uses a netloc: `//` is emitted even with empty host
          have hp1 := H4 hh0 hs0 hmem
          have hform := pyUrlunsplit_netloc_form (canonScheme u) (canonHost u)
            (canonPath u) [] (Or.inr ⟨hs0, hmem, hp2⟩) hp1
          have hsplit := pyUrlsplit_built (canonScheme u) (canonHost u)
            (canonPath u) [] (Or.inr hsok) hh'mem hp1 hpmem'
            (fun c hc => absurd hc (List.not_mem_nil c))
          rw [canonScheme_lower_fix u] at hsplit
          rw [canonicalise_eq u, hform]
          exact hsplit
        · -- scheme without netloc: `scheme:path`
          have hform : pyUrlunsplit (canonScheme u) (canonHost u) (canonPath u)
              [] [] = canonScheme u ++ ':' :: canonPath u := by
            rw [hh0, pyUrlunsplit_plain_form (canonScheme u) (canonPath u)
              (Or.inr (Or.inl hmem)), if_neg hs0]
            simp
          have hsplit := pyUrlsplit_plain_scheme (canonScheme u) (canonPath u)
            hsok hp'ne hpmem' hp2
          rw [canonScheme_lower_fix u] at hsplit
          rw [canonicalise_eq u, hform, hsplit, hh0]
    · -- host present
      have hnet : (pyUrlsplit [] u).netloc ≠ [] := by
        intro h0
        apply hh0
        rw [canonHost_eq u, h0]
        decide
      have hb := urlsplit_netloc_of_ne u hnet
      have hp1 := hslash_take1 hb
      have hform := pyUrlunsplit_netloc_form (canonScheme u) (canonHost u)
        (canonPath u) [] (Or.inl hh0) hp1
      have hsplit := pyUrlsplit_built (canonScheme u) (canonHost u)
        (canonPath u) [] hs'fact hh'mem hp1 hpmem'
        (fun c hc => absurd hc (List.not_mem_nil c))
      rw [canonScheme_lower_fix u] at hsplit
      rw [canonicalise_eq u, hform]
      exact hsplit
  · rw [hb2, hb1, rstripSlash_append_slash]
  · rw [hb3, hb1, pyLower_append,
      show pyLower ("www.".data) = "www.".data from by decide, stripWww_www,
      show stripWww (pyLower h) = pyLower h from by
        unfold stripWww
        rw [if_neg hw]]
  · rw [hb4, hb1, hlow]
  · rw [hb5, hb1]

theorem C3_canonicalise_witness :
    ((canonHost "http://example.com/a".data).take 4 ≠ "www.".data
      ∧ ';' ∉ (pyUrlsplit [] "http://example.com/a".data).path
      ∧ ¬ (canonHost "http://example.com/a".data = []
          ∧ (canonPath "http://example.com/a".data).take 2 = ['/', '/'])
      ∧ (canonHost "http://example.com/a".data = [] →
          canonScheme "http://example.com/a".data ≠ [] →
          canonScheme "http://example.com/a".data ∈ usesNetloc →
          (canonPath "http://example.com/a".data).take 1 = ['/'])
      ∧ schemeOk "http".data ∧ schemeOk "HTTP".data
      ∧ pyLower "HTTP".data = pyLower "http".data
      ∧ hostOk "example.com".data
      ∧ (pyLower "example.com".data).take 4 ≠ "www.".data
      ∧ pathOk "/a".data ∧ queryOk "x=1".data)
    ∧ (canonicalise (canonicalise "http://example.com/a".data)
        = canonicalise "http://example.com/a".data
      ∧ canonicalise (pyUrlunsplit "http".data "example.com".data
            ("/a".data ++ ['/']) "x=1".data [])
        = canonicalise (pyUrlunsplit "http".data "example.com".data
            "/a".data "x=1".data [])
      ∧ canonicalise (pyUrlunsplit "http".data
            ("www.".data ++ "example.com".data) "/a".data "x=1".data [])
        = canonicalise (pyUrlunsplit "http".data "example.com".data
            "/a".data "x=1".data [])
      ∧ canonicalise (pyUrlunsplit "HTTP".data "example.com".data
            "/a".data "x=1".data [])
        = canonicalise (pyUrlunsplit "http".data "example.com".data
            "/a".data "x=1".data [])
      ∧ canonicalise (pyUrlunsplit "http".data "example.com".data
            "/a".data "x=1".data [])
        = canonicalise (pyUrlunsplit "http".data "example.com".data
            "/a".data [] [])) :=
  ⟨⟨by decide, by decide, by decide, by decide, by decide, by decide,
    by decide, by decide, by decide, by decide, by decide⟩,
    C3_canonicalise "http://example.com/a".data (by decide) (by decide)
      (by decide) (by decide) "http".data "HTTP".data "example.com".data
      "/a".data "x=1".data (by decide) (by decide) (by decide) (by decide)
      (by decide) (by decide) (by decide)⟩
